import Mathlib

/-!
# Template substitution of firejail (`src/firejail/template.c`)

A shallow embedding of the template registry, the `KEY:VALUE` argument check,
the pre-flight scan `template_requires_expansion` and the expander
`template_replace_keys`, followed by theorems about them.

Modelling conventions.

* A C string is the list of its characters before the terminating NUL; a
  `char *` that may be `NULL` is an `Option (List Char)`.
* `malloc`, `strdup`, `realloc` and `asprintf` are taken to succeed.
* `errno` values and the messages printed on `stderr` are kept as the error
  value of the function that sets or prints them.
* The global `tmpl_list` is passed explicitly as a `List Template`, head first.
* Loops driven by `strtok_r` or by a moving pointer carry a fuel argument that
  is initialised with the length of the string plus one, which is more than
  the number of iterations the loop can make.
* `check_template_run` is `check_template` with the list at the moment the
  call returns or exits; the functions whose name ends in `_mem` are the
  expander with the bytes that `strtok_r` leaves in its argument. Both are
  proved to return what `check_template` and `template_replace_keys` return.
-/

namespace Firejail

/-! ## What the module takes from elsewhere -/

/-- The two items of `firejail.h` and `macro.c` that `template.c` uses and
that are not part of the module: the constant `DBUS_MAX_NAME_LENGTH` and the
function `macro_id`, which returns `-1` for a string that is not a hardcoded
macro and the index of the macro otherwise. -/
structure Env where
  DBUS_MAX_NAME_LENGTH : Nat
  macro_id : List Char → Int

/-- Value of `EINVAL` in `errno.h`. -/
def EINVAL : Int := 22
/-- Value of `ENOKEY` in `errno.h`. -/
def ENOKEY : Int := 126
/-- Value of `EALREADY` in `errno.h`. -/
def EALREADY : Int := 114
/-- Value of `ENOMEM` in `errno.h`. -/
def ENOMEM : Int := 12

/-! ## libc -/

/-- `isalpha` in the C locale. -/
def isalpha (c : Char) : Bool :=
  (65 ≤ c.toNat && c.toNat ≤ 90) || (97 ≤ c.toNat && c.toNat ≤ 122)

/-- `isdigit`. -/
def isdigit (c : Char) : Bool :=
  48 ≤ c.toNat && c.toNat ≤ 57

/-- `isalnum` in the C locale. -/
def isalnum (c : Char) : Bool :=
  isalpha c || isdigit c

/-- `iscntrl` in the C locale. -/
def iscntrl (c : Char) : Bool :=
  c.toNat < 32 || c.toNat == 127

/-- `strchr(s, c)`: the suffix of `s` that starts at the first `c`, `none`
for `NULL`. -/
def strchr : List Char → Char → Option (List Char)
  | [], _ => none
  | x :: xs, c => if x = c then some (x :: xs) else strchr xs c

/-- `strstr(hay, needle) != NULL`. -/
def strstr : List Char → List Char → Bool
  | [], needle => needle.isEmpty
  | c :: cs, needle => needle.isPrefixOf (c :: cs) || strstr cs needle

/-- `strtok_r(str, delim, &saveptr)`. The argument is the string the scan
starts from (`str`, or `*saveptr` when `str` is `NULL`). The result is `none`
when no token is left, otherwise the token and the new `*saveptr`: the text
after the delimiter that ended the token. -/
def strtok_r (str delim : List Char) : Option (List Char × List Char) :=
  match str.dropWhile (fun c => delim.contains c) with
  | [] => none
  | c :: cs =>
    some ((c :: cs).takeWhile (fun x => !delim.contains x),
          ((c :: cs).dropWhile (fun x => !delim.contains x)).tail)

/-- All the tokens that successive calls of `strtok_r` return for a string,
in order. -/
def strtok_all (delim : List Char) : Nat → List Char → List (List Char)
  | 0, _ => []
  | fuel + 1, s =>
    match strtok_r s delim with
    | none => []
    | some (token, saveptr) => token :: strtok_all delim fuel saveptr

/-- Equality of two results is decidable. -/
instance instDecidableEqExcept {ε α : Type} [DecidableEq ε] [DecidableEq α] :
    DecidableEq (Except ε α) :=
  fun a b =>
    match a, b with
    | .ok x, .ok y =>
      if h : x = y then isTrue (by rw [h]) else isFalse (fun e => h (Except.ok.inj e))
    | .error x, .error y =>
      if h : x = y then isTrue (by rw [h]) else isFalse (fun e => h (Except.error.inj e))
    | .ok _, .error _ => isFalse (fun e => Except.noConfusion e)
    | .error _, .ok _ => isFalse (fun e => Except.noConfusion e)

/-! ## Constants of the module -/

/-- `TEMPLATE_KEY_VALUE_DELIM`. -/
def TEMPLATE_KEY_VALUE_DELIM : List Char := [':']
/-- `TEMPLATE_KEY_MACRO_DELIM`. -/
def TEMPLATE_KEY_MACRO_DELIM : List Char := ['$']
/-- `TEMPLATE_KEY_MACRO_SUB_DELIMS`. -/
def TEMPLATE_KEY_MACRO_SUB_DELIMS : List Char := ['{', '}']
/-- `TEMPLATE_STR_COMPAT_CHARS`. -/
def TEMPLATE_STR_COMPAT_CHARS : List Char := ['_', '-', '/', '.']

/-- The format `"${%s}"` of the two `asprintf` calls. -/
def macro_form (key : List Char) : List Char :=
  ['$', '{'] ++ key ++ ['}']

/-! ## The registry -/

/-- `struct template_t` without its `next` pointer. -/
structure Template where
  key : List Char
  value : List Char
deriving DecidableEq, Repr

/-- `StrCheckType`. -/
inductive StrCheckType where
  | STR_CHECK_ALNUM
  | STR_CHECK_COMPAT
deriving DecidableEq, Repr

/-- `template_new`: `NULL` when the key or the value is `NULL` or empty. -/
def template_new (key value : Option (List Char)) : Option Template :=
  match key, value with
  | some (k :: ks), some (v :: vs) => some ⟨k :: ks, v :: vs⟩
  | _, _ => none

/-- `template_get`: the first entry of the list with the key; the error is the
value left in `errno` when `NULL` is returned. -/
def template_get (tmpl_list : List Template) (key : List Char) : Except Int Template :=
  if key = [] then .error EINVAL
  else
    match tmpl_list.find? (fun t => key == t.key) with
    | some t => .ok t
    | none => .error ENOKEY

/-- `template_get_value`. -/
def template_get_value (tmpl_list : List Template) (key : List Char) : Except Int (List Char) :=
  match template_get tmpl_list key with
  | .ok t => .ok t.value
  | .error e => .error e

/-- `template_add`: the return value and the list after the call. -/
def template_add (tmpl_list : List Template) (tmpl : Option Template) : Int × List Template :=
  match tmpl with
  | none => (-EINVAL, tmpl_list)
  | some t =>
    if !tmpl_list.isEmpty && (template_get tmpl_list t.key).toBool then (-EALREADY, tmpl_list)
    else (0, t :: tmpl_list)

/-- `template_cleanup`: the list after the call. -/
def template_cleanup (_tmpl_list : List Template) : List Template := []

/-! ## Validation -/

/-- `is_compat_char`. -/
def is_compat_char (c : Char) : Bool :=
  TEMPLATE_STR_COMPAT_CHARS.contains c

/-- `is_valid_str`. -/
def is_valid_str (E : Env) (str : Option (List Char)) (type : StrCheckType) : Bool :=
  match str with
  | none => false
  | some [] => false
  | some (c :: cs) =>
    (match type with
      | .STR_CHECK_ALNUM => isalpha c
      | .STR_CHECK_COMPAT =>
        !decide ((c :: cs).length > E.DBUS_MAX_NAME_LENGTH) && !strstr (c :: cs) ['.', '.'])
    && cs.all (fun x =>
      !iscntrl x &&
      (match type with
        | .STR_CHECK_ALNUM => isalnum x
        | .STR_CHECK_COMPAT => isalnum x || is_compat_char x))

/-- `internal_keys`. -/
def internal_keys : List (List Char) :=
  ["HOME".toList, "CFG".toList, "RUNUSER".toList, "PATH".toList, "PRIVILEGED".toList]

/-- `is_internal_macro`. -/
def is_internal_macro (E : Env) (key : List Char) : Bool :=
  internal_keys.contains key || E.macro_id (macro_form key) != -1

/-- The message `check_template` prints before `exit(1)`. -/
inductive CheckError where
  | InvalidKey
  | InvalidValue
  | OverrideNotPermitted
  | InvalidKeyValue
  | AlreadyExists
  | NoMessage
deriving DecidableEq, Repr

/-- `check_template`: the list after a call that returns, or the message of
the call that exits. -/
def check_template (E : Env) (tmpl_list : List Template) (arg : List Char) :
    Except CheckError (List Template) :=
  let first := strtok_r arg TEMPLATE_KEY_VALUE_DELIM
  let key := first.map Prod.fst
  if !is_valid_str E key .STR_CHECK_ALNUM then .error .InvalidKey
  else
    let value := (first.bind (fun p => strtok_r p.2 TEMPLATE_KEY_VALUE_DELIM)).map Prod.fst
    if !is_valid_str E value .STR_CHECK_COMPAT then .error .InvalidValue
    else if is_internal_macro E (key.getD []) then .error .OverrideNotPermitted
    else
      let r := template_add tmpl_list (template_new key value)
      if r.1 = 0 then .ok r.2
      else if r.1 = -EINVAL then .error .InvalidKeyValue
      else if r.1 = -EALREADY then .error .AlreadyExists
      else .error .NoMessage

/-! ## The pre-flight scan -/

/-- Why `template_requires_expansion` has no defined return value. -/
inductive ScanFault where
  /-- The copy loop filled all `DBUS_MAX_NAME_LENGTH` bytes of `buf`, so that
  `buf` holds no terminating zero and reading it as a string runs past its
  end. -/
  | Unterminated
  /-- The fuel of the model ran out. -/
  | OutOfFuel
deriving DecidableEq, Repr

/-- The copy loop of `template_requires_expansion`,
`for (i = 0, ptr += 2; *ptr && *ptr != '}' && i < DBUS_MAX_NAME_LENGTH; ptr++, i++) buf[i] = *ptr;`
started with `ptr` already moved past `${`. The arguments are `i`, `ptr` and
the bytes `buf[0..i-1]`; the result is the bytes copied and the final `ptr`. -/
def copy_key_name (E : Env) : Nat → List Char → List Char → List Char × List Char
  | _, [], buf => (buf, [])
  | i, c :: cs, buf =>
    if c ≠ '}' ∧ i < E.DBUS_MAX_NAME_LENGTH then copy_key_name E (i + 1) cs (buf ++ [c])
    else (buf, c :: cs)

/-- The string that `buf`, a zero-initialised array of `DBUS_MAX_NAME_LENGTH`
bytes whose first bytes were overwritten by `copied`, holds: `none` when no
zero byte is left in the array. -/
def buf_string (E : Env) (copied : List Char) : Option (List Char) :=
  if copied.length < E.DBUS_MAX_NAME_LENGTH then some copied else none

/-- The `while (*ptr)` loop of `template_requires_expansion`. -/
def scan_loop (E : Env) (tmpl_list : List Template) : Nat → List Char → Except ScanFault Int
  | 0, _ => .error .OutOfFuel
  | _ + 1, [] => .ok 0
  | fuel + 1, c :: cs =>
    if c = '$' ∧ cs.head? = some '{' then
      let r := copy_key_name E 0 cs.tail []
      match buf_string E r.1 with
      | none => .error .Unterminated
      | some buf =>
        if is_internal_macro E buf then scan_loop E tmpl_list fuel r.2
        else if !(template_get tmpl_list buf).toBool then .ok (-EINVAL)
        else .ok 1
    else scan_loop E tmpl_list fuel cs

/-- `template_requires_expansion`. -/
def template_requires_expansion (E : Env) (tmpl_list : List Template) (arg : List Char) :
    Except ScanFault Int :=
  if arg = [] then .ok 0
  else
    match strchr arg '$' with
    | none => .ok 0
    | some ptr => scan_loop E tmpl_list (ptr.length + 1) ptr

/-! ## The expander -/

/-- `append_to_string`. -/
def append_to_string (str1 str2 : Option (List Char)) : Option (List Char) :=
  match str2 with
  | none => str1
  | some s2 =>
    match str1 with
    | none => some s2
    | some s1 => some (s1 ++ s2)

/-- How `process_key_value` returns `NULL` through the label `err`. -/
inductive KeyValueError where
  /-- The value of `errno` at the label `err`, set by `template_get`. -/
  | Errno (errno : Int)
  /-- The fuel of the model ran out. -/
  | OutOfFuel
deriving DecidableEq, Repr

/-- The `for` loop of `process_key_value`. `first` says that `str` is not
`NULL`, which holds in the first iteration only; the last argument is the
string `strtok_r` goes on from. -/
def process_key_value_loop (E : Env) (tmpl_list : List Template) :
    Nat → Option (List Char) → Bool → List Char → Except KeyValueError (Option (List Char))
  | 0, _, _, _ => .error .OutOfFuel
  | fuel + 1, container, first, s =>
    match strtok_r s TEMPLATE_KEY_MACRO_SUB_DELIMS with
    | none => .ok container
    | some (token, saveptr) =>
      if is_internal_macro E token then
        process_key_value_loop E tmpl_list fuel
          (append_to_string container (some (macro_form token))) false saveptr
      else
        match (if first then template_get_value tmpl_list token else .ok token) with
        | .error e => .error (.Errno e)
        | .ok value =>
          process_key_value_loop E tmpl_list fuel
            (append_to_string container (some value)) false saveptr

/-- `process_key_value`: the container returned, or the value of `errno` when
`NULL` is returned through the label `err`. -/
def process_key_value (E : Env) (tmpl_list : List Template) (container : Option (List Char))
    (str_in : List Char) : Except KeyValueError (Option (List Char)) :=
  process_key_value_loop E tmpl_list (str_in.length + 1) container true str_in

/-- How `template_replace_keys` returns `NULL`. -/
inductive ReplaceError where
  /-- No message: `arg` is `NULL` or empty. -/
  | NoMessage
  /-- Message `Error line "%s" starts with "$"`. -/
  | StartsWithDollar
  /-- Message `Unterminated macro/template key on line "%s"`. -/
  | Unterminated
  /-- Message `Error invalid line "%s" (err %s)`, with the value of `errno`. -/
  | InvalidLine (errno : Int)
  /-- The fuel of the model ran out. -/
  | OutOfFuel
deriving DecidableEq, Repr

/-- The `for` loop of `template_replace_keys`; `first` says that `str` is not
`NULL`. -/
def template_replace_keys_loop (E : Env) (tmpl_list : List Template) :
    Nat → Option (List Char) → Bool → List Char → Except ReplaceError (Option (List Char))
  | 0, _, _, _ => .error .OutOfFuel
  | fuel + 1, new_string, first, s =>
    match strtok_r s TEMPLATE_KEY_MACRO_DELIM with
    | none => .ok new_string
    | some (token, saveptr) =>
      if !first then
        if token.head? != some '{' && (strchr token.tail '}').isNone then .error .Unterminated
        else
          match process_key_value E tmpl_list new_string token with
          | .error (.Errno e) => .error (.InvalidLine e)
          | .error .OutOfFuel => .error .OutOfFuel
          | .ok none => .error (.InvalidLine 0)
          | .ok (some s') => template_replace_keys_loop E tmpl_list fuel (some s') false saveptr
      else
        match append_to_string new_string (some token) with
        | none => .error (.InvalidLine ENOMEM)
        | some s' => template_replace_keys_loop E tmpl_list fuel (some s') false saveptr

/-- `template_replace_keys`: the new string, or the way `NULL` is returned. -/
def template_replace_keys (E : Env) (tmpl_list : List Template) (arg : List Char) :
    Except ReplaceError (List Char) :=
  if arg = [] then .error .NoMessage
  else if (strchr arg '$').isNone then .ok arg
  else if arg.head? = some '$' then .error .StartsWithDollar
  else
    match template_replace_keys_loop E tmpl_list (arg.length + 1) none true arg with
    | .error e => .error e
    | .ok none => .error .NoMessage
    | .ok (some s) => .ok s

/-! ## A fixed environment for concrete runs -/

/-- An environment with the D-Bus name limit 255 and a `macro_id` that knows
no macro. -/
def env0 : Env := ⟨255, fun _ => -1⟩

/-- The names that `macro_id` knows in the form `${name}` are not empty and
hold none of the characters `$`, `{` and `}`. -/
def plain_macro_names (E : Env) : Prop :=
  ∀ m : List Char, E.macro_id (macro_form m) ≠ -1 → m ≠ [] ∧ '$' ∉ m ∧ '{' ∉ m ∧ '}' ∉ m

/-! ## Lines made of references -/

/-- The text of a list of references: each item is a key `k`, written
`${k}`, and the text that follows the closing brace. -/
def refs_text : List (List Char × List Char) → List Char
  | [] => []
  | r :: rs => macro_form r.1 ++ r.2 ++ refs_text rs

/-- The first key of a list of references that is no internal macro. -/
def first_external (E : Env) : List (List Char × List Char) → Option (List Char)
  | [] => none
  | r :: rs => if is_internal_macro E r.1 then first_external E rs else some r.1

/-! ## The argument check, with the list it leaves -/

/-- The part of `check_template` that follows the two calls of `strtok_r`,
for the `key` and the `value` they returned: the message of a call that
exits (`none` for a call that returns), and the list `tmpl_list` at that
moment. -/
def check_key_value (E : Env) (tmpl_list : List Template) (key value : Option (List Char)) :
    Option CheckError × List Template :=
  if !is_valid_str E key .STR_CHECK_ALNUM then (some .InvalidKey, tmpl_list)
  else if !is_valid_str E value .STR_CHECK_COMPAT then (some .InvalidValue, tmpl_list)
  else if is_internal_macro E (key.getD []) then (some .OverrideNotPermitted, tmpl_list)
  else
    let r := template_add tmpl_list (template_new key value)
    if r.1 = 0 then (none, r.2)
    else if r.1 = -EINVAL then (some .InvalidKeyValue, r.2)
    else if r.1 = -EALREADY then (some .AlreadyExists, r.2)
    else (some .NoMessage, r.2)

/-- `check_template`, with the list `tmpl_list` at the moment the call
returns or calls `exit`. -/
def check_template_run (E : Env) (tmpl_list : List Template) (arg : List Char) :
    Option CheckError × List Template :=
  let first := strtok_r arg TEMPLATE_KEY_VALUE_DELIM
  check_key_value E tmpl_list (first.map Prod.fst)
    ((first.bind (fun p => strtok_r p.2 TEMPLATE_KEY_VALUE_DELIM)).map Prod.fst)

/-! ## Sequences of calls on the list -/

/-- A call that changes the list: `template_add` with a template or `NULL`,
or `template_cleanup`. -/
inductive RegistryCall where
  | add (tmpl : Option Template)
  | cleanup
deriving DecidableEq, Repr

/-- The list after one call. -/
def run_call (tmpl_list : List Template) : RegistryCall → List Template
  | .add tmpl => (template_add tmpl_list tmpl).2
  | .cleanup => template_cleanup tmpl_list

/-- The list after a sequence of calls. -/
def run_calls (tmpl_list : List Template) (calls : List RegistryCall) : List Template :=
  calls.foldl run_call tmpl_list

/-! ## The bytes of the buffer of the scan -/

/-- The zero byte. -/
def NUL : Char := Char.ofNat 0

/-- The bytes of `buf`, an array of `DBUS_MAX_NAME_LENGTH` bytes initialised
with zeros, after the copy loop has written `copied` to its start. -/
def buf_bytes (E : Env) (copied : List Char) : List Char :=
  copied ++ List.replicate (E.DBUS_MAX_NAME_LENGTH - copied.length) NUL

/-! ## The expander, with the bytes it leaves in its argument -/

/-- The bytes that `strtok_r(str, delim, ..)` skips before the token: the
delimiters at the start of the string. They are left as they are. -/
def strtok_r_skipped (str delim : List Char) : List Char :=
  str.takeWhile (fun c => delim.contains c)

/-- What `strtok_r(str, delim, ..)` leaves in the byte behind the token: the
zero byte it writes over the delimiter that ends the token, and nothing when
the token ends with the string. -/
def strtok_r_written (str delim : List Char) : List Char :=
  match (str.dropWhile (fun c => delim.contains c)).dropWhile (fun x => !delim.contains x) with
  | [] => []
  | _ :: _ => [NUL]

/-- The `for` loop of `process_key_value` as in `process_key_value_loop`,
with the bytes that the string `str_in` holds when the function returns:
`before` are the bytes in front of the place `strtok_r` goes on from, `s` the
string from there on. -/
def process_key_value_loop_mem (E : Env) (tmpl_list : List Template) :
    Nat → Option (List Char) → Bool → List Char → List Char →
      Except KeyValueError (Option (List Char)) × List Char
  | 0, _, _, before, s => (.error .OutOfFuel, before ++ s)
  | fuel + 1, container, first, before, s =>
    match strtok_r s TEMPLATE_KEY_MACRO_SUB_DELIMS with
    | none => (.ok container, before ++ s)
    | some (token, saveptr) =>
      let passed := before ++ strtok_r_skipped s TEMPLATE_KEY_MACRO_SUB_DELIMS ++ token
        ++ strtok_r_written s TEMPLATE_KEY_MACRO_SUB_DELIMS
      if is_internal_macro E token then
        process_key_value_loop_mem E tmpl_list fuel
          (append_to_string container (some (macro_form token))) false passed saveptr
      else
        match (if first then template_get_value tmpl_list token else .ok token) with
        | .error e => (.error (.Errno e), passed ++ saveptr)
        | .ok value =>
          process_key_value_loop_mem E tmpl_list fuel
            (append_to_string container (some value)) false passed saveptr

/-- `process_key_value` with the bytes that `str_in` holds afterwards. -/
def process_key_value_mem (E : Env) (tmpl_list : List Template) (container : Option (List Char))
    (str_in : List Char) : Except KeyValueError (Option (List Char)) × List Char :=
  process_key_value_loop_mem E tmpl_list (str_in.length + 1) container true [] str_in

/-- The `for` loop of `template_replace_keys` as in
`template_replace_keys_loop`, with the bytes that `arg` holds when the
function returns. -/
def template_replace_keys_loop_mem (E : Env) (tmpl_list : List Template) :
    Nat → Option (List Char) → Bool → List Char → List Char →
      Except ReplaceError (Option (List Char)) × List Char
  | 0, _, _, before, s => (.error .OutOfFuel, before ++ s)
  | fuel + 1, new_string, first, before, s =>
    match strtok_r s TEMPLATE_KEY_MACRO_DELIM with
    | none => (.ok new_string, before ++ s)
    | some (token, saveptr) =>
      let skipped := before ++ strtok_r_skipped s TEMPLATE_KEY_MACRO_DELIM
      let written := strtok_r_written s TEMPLATE_KEY_MACRO_DELIM
      if !first then
        if token.head? != some '{' && (strchr token.tail '}').isNone then
          (.error .Unterminated, skipped ++ token ++ written ++ saveptr)
        else
          let r := process_key_value_mem E tmpl_list new_string token
          match r.1 with
          | .error (.Errno e) => (.error (.InvalidLine e), skipped ++ r.2 ++ written ++ saveptr)
          | .error .OutOfFuel => (.error .OutOfFuel, skipped ++ r.2 ++ written ++ saveptr)
          | .ok none => (.error (.InvalidLine 0), skipped ++ r.2 ++ written ++ saveptr)
          | .ok (some s') =>
            template_replace_keys_loop_mem E tmpl_list fuel (some s') false
              (skipped ++ r.2 ++ written) saveptr
      else
        match append_to_string new_string (some token) with
        | none => (.error (.InvalidLine ENOMEM), skipped ++ token ++ written ++ saveptr)
        | some s' =>
          template_replace_keys_loop_mem E tmpl_list fuel (some s') false
            (skipped ++ token ++ written) saveptr

/-- `template_replace_keys` with the bytes that the string `arg` holds when
the function returns (the zero byte that ends `arg` is never written). -/
def template_replace_keys_mem (E : Env) (tmpl_list : List Template) (arg : List Char) :
    Except ReplaceError (List Char) × List Char :=
  if arg = [] then (.error .NoMessage, arg)
  else if (strchr arg '$').isNone then (.ok arg, arg)
  else if arg.head? = some '$' then (.error .StartsWithDollar, arg)
  else
    let r := template_replace_keys_loop_mem E tmpl_list (arg.length + 1) none true [] arg
    (match r.1 with
      | .error e => .error e
      | .ok none => .error .NoMessage
      | .ok (some s) => .ok s, r.2)

/-- What a byte of the argument can be after the call, given the byte `a`
before the call: `a` itself or the zero byte. -/
def kept_or_zero (a b : Char) : Prop :=
  b = a ∨ b = NUL

/-! ## Lemmas on the libc functions -/

theorem strchr_eq_none {s : List Char} {c : Char} (h : c ∉ s) : strchr s c = none := by
  induction s with
  | nil => rfl
  | cons x xs ih =>
    have hx : x ≠ c := fun e => h (by simp [e])
    have hxs : c ∉ xs := fun e => h (by simp [e])
    simp [strchr, hx, ih hxs]

theorem strchr_append_cons {p : List Char} {c : Char} (r : List Char) (h : c ∉ p) :
    strchr (p ++ c :: r) c = some (c :: r) := by
  induction p with
  | nil => simp [strchr]
  | cons x xs ih =>
    have hx : x ≠ c := fun e => h (by simp [e])
    have hxs : c ∉ xs := fun e => h (by simp [e])
    simp [strchr, hx, ih hxs]

theorem strchr_isSome_of_mem {s : List Char} {c : Char} (h : c ∈ s) : (strchr s c).isSome := by
  induction s with
  | nil => simp at h
  | cons x xs ih =>
    by_cases hx : x = c
    · simp [strchr, hx]
    · have : c ∈ xs := by
        rcases List.mem_cons.1 h with e | e
        · exact absurd e.symm hx
        · exact e
      simp [strchr, hx, ih this]

theorem strtok_r_skip {d : Char} {delim : List Char} (s : List Char)
    (hd : delim.contains d = true) :
    strtok_r (d :: s) delim = strtok_r s delim := by
  simp only [strtok_r, List.dropWhile_cons, hd, if_true]

theorem takeWhile_append_delim {delim : List Char} {p : List Char} {d : Char} (r : List Char)
    (hp : ∀ c ∈ p, delim.contains c = false) (hd : delim.contains d = true) :
    (p ++ d :: r).takeWhile (fun x => !delim.contains x) = p := by
  induction p with
  | nil => simp only [List.nil_append, List.takeWhile_cons, hd, Bool.not_true,
      Bool.false_eq_true, if_false]
  | cons x xs ih =>
    have hx : delim.contains x = false := hp x (List.mem_cons_self _ _)
    have := ih (fun c hc => hp c (List.mem_cons_of_mem _ hc))
    simp only [List.cons_append, List.takeWhile_cons, hx, Bool.not_false, if_true, this]

theorem dropWhile_append_delim {delim : List Char} {p : List Char} {d : Char} (r : List Char)
    (hp : ∀ c ∈ p, delim.contains c = false) (hd : delim.contains d = true) :
    (p ++ d :: r).dropWhile (fun x => !delim.contains x) = d :: r := by
  induction p with
  | nil => simp only [List.nil_append, List.dropWhile_cons, hd, Bool.not_true,
      Bool.false_eq_true, if_false]
  | cons x xs ih =>
    have hx : delim.contains x = false := hp x (List.mem_cons_self _ _)
    have := ih (fun c hc => hp c (List.mem_cons_of_mem _ hc))
    simp only [List.cons_append, List.dropWhile_cons, hx, Bool.not_false, if_true, this]

theorem takeWhile_no_delim {delim : List Char} {p : List Char}
    (hp : ∀ c ∈ p, delim.contains c = false) :
    p.takeWhile (fun x => !delim.contains x) = p := by
  induction p with
  | nil => rfl
  | cons x xs ih =>
    have hx : delim.contains x = false := hp x (List.mem_cons_self _ _)
    have := ih (fun c hc => hp c (List.mem_cons_of_mem _ hc))
    simp only [List.takeWhile_cons, hx, Bool.not_false, if_true, this]

theorem dropWhile_no_delim {delim : List Char} {p : List Char}
    (hp : ∀ c ∈ p, delim.contains c = false) :
    p.dropWhile (fun x => !delim.contains x) = [] := by
  induction p with
  | nil => rfl
  | cons x xs ih =>
    have hx : delim.contains x = false := hp x (List.mem_cons_self _ _)
    have := ih (fun c hc => hp c (List.mem_cons_of_mem _ hc))
    simp only [List.dropWhile_cons, hx, Bool.not_false, if_true, this]

/-- A token that starts the string and is ended by a delimiter. -/
theorem strtok_r_token {delim : List Char} {p : List Char} {d : Char} (r : List Char)
    (hne : p ≠ []) (hp : ∀ c ∈ p, delim.contains c = false) (hd : delim.contains d = true) :
    strtok_r (p ++ d :: r) delim = some (p, r) := by
  cases p with
  | nil => exact absurd rfl hne
  | cons x xs =>
    have hx : delim.contains x = false := hp x (List.mem_cons_self _ _)
    have h1 := takeWhile_append_delim r hp hd
    have h2 := dropWhile_append_delim r hp hd
    have h0 : ((x :: xs) ++ d :: r).dropWhile (fun c => delim.contains c)
        = (x :: xs) ++ d :: r := by
      simp only [List.cons_append, List.dropWhile_cons, hx, Bool.false_eq_true, if_false]
    unfold strtok_r
    rw [h0]
    show some (((x :: xs) ++ d :: r).takeWhile (fun x => !delim.contains x),
      (((x :: xs) ++ d :: r).dropWhile (fun x => !delim.contains x)).tail) = _
    rw [h1, h2]
    rfl

/-- A token that runs to the end of the string. -/
theorem strtok_r_last {delim : List Char} {p : List Char}
    (hne : p ≠ []) (hp : ∀ c ∈ p, delim.contains c = false) :
    strtok_r p delim = some (p, []) := by
  cases p with
  | nil => exact absurd rfl hne
  | cons x xs =>
    have hx : delim.contains x = false := hp x (List.mem_cons_self _ _)
    have h1 := takeWhile_no_delim hp
    have h2 := dropWhile_no_delim hp
    have h0 : (x :: xs).dropWhile (fun c => delim.contains c) = x :: xs := by
      simp only [List.dropWhile_cons, hx, Bool.false_eq_true, if_false]
    unfold strtok_r
    rw [h0]
    show some ((x :: xs).takeWhile (fun x => !delim.contains x),
      ((x :: xs).dropWhile (fun x => !delim.contains x)).tail) = _
    rw [h1, h2]
    rfl

theorem strtok_r_nil (delim : List Char) : strtok_r [] delim = none := rfl

/-- The string left after a token is shorter than the string scanned. -/
theorem strtok_r_length {delim s t r : List Char} (h : strtok_r s delim = some (t, r)) :
    r.length < s.length := by
  unfold strtok_r at h
  have h1 : (s.dropWhile (fun c => delim.contains c)).length ≤ s.length :=
    (List.dropWhile_sublist _).length_le
  split at h
  · exact absurd h (by simp)
  · rename_i c cs hcs
    simp only [Option.some.injEq, Prod.mk.injEq] at h
    rw [hcs] at h1
    rw [← h.2]
    have h2 : ((c :: cs).dropWhile (fun x => !delim.contains x)).tail.length ≤ cs.length := by
      by_cases hc : delim.contains c = true
      · simp only [List.dropWhile_cons, hc, Bool.not_true, Bool.false_eq_true, if_false,
          List.tail_cons, le_refl]
      · have hc2 : delim.contains c = false := by simpa using hc
        simp only [List.dropWhile_cons, hc2, Bool.not_false, if_true, List.length_tail]
        have := (List.dropWhile_sublist (fun x => !delim.contains x) (l := cs)).length_le
        omega
    simp only [List.length_cons] at h1
    omega

/-! ## Tokens of a string -/

theorem filter_dropWhile_delim (delim s : List Char) :
    (s.dropWhile (fun c => delim.contains c)).filter (fun c => !delim.contains c)
      = s.filter (fun c => !delim.contains c) := by
  induction s with
  | nil => rfl
  | cons x xs ih =>
    by_cases hx : delim.contains x = true
    · simp only [List.dropWhile_cons, hx, if_true, List.filter_cons, Bool.not_true,
        Bool.false_eq_true, if_false, ih]
    · have hx2 : delim.contains x = false := by simpa using hx
      simp only [List.dropWhile_cons, hx2, Bool.false_eq_true, if_false]

theorem filter_eq_takeWhile_append (q : Char → Bool) (s : List Char) :
    s.filter q = s.takeWhile q ++ ((s.dropWhile q).tail).filter q := by
  induction s with
  | nil => rfl
  | cons x xs ih =>
    by_cases hx : q x = true
    · simp only [List.filter_cons, hx, if_true, List.takeWhile_cons, List.dropWhile_cons,
        List.cons_append, ih]
    · have hx2 : q x = false := by simpa using hx
      simp only [List.filter_cons, hx2, Bool.false_eq_true, if_false, List.takeWhile_cons,
        List.dropWhile_cons, List.nil_append, List.tail_cons]

theorem strtok_r_filter_none {delim s : List Char} (h : strtok_r s delim = none) :
    s.filter (fun c => !delim.contains c) = [] := by
  unfold strtok_r at h
  split at h
  · rename_i heq
    rw [← filter_dropWhile_delim, heq]
    rfl
  · exact absurd h (by simp)

theorem strtok_r_filter_some {delim s t r : List Char} (h : strtok_r s delim = some (t, r)) :
    s.filter (fun c => !delim.contains c) = t ++ r.filter (fun c => !delim.contains c) := by
  unfold strtok_r at h
  split at h
  · exact absurd h (by simp)
  · rename_i c cs heq
    simp only [Option.some.injEq, Prod.mk.injEq] at h
    rw [← filter_dropWhile_delim, heq, ← h.1, ← h.2]
    exact filter_eq_takeWhile_append _ _

/-- The tokens, put together, are the string without its delimiters. -/
theorem strtok_all_join (delim : List Char) :
    ∀ (fuel : Nat) (s : List Char), s.length < fuel →
      (strtok_all delim fuel s).flatten = s.filter (fun c => !delim.contains c) := by
  intro fuel
  induction fuel with
  | zero => intro s h; exact absurd h (Nat.not_lt_zero _)
  | succ n ih =>
    intro s h
    unfold strtok_all
    cases hs : strtok_r s delim with
    | none => simp only [List.flatten_nil]; exact (strtok_r_filter_none hs).symm
    | some tr =>
      obtain ⟨t, r⟩ := tr
      have hlen := strtok_r_length hs
      simp only [List.flatten_cons]
      rw [ih r (by omega), strtok_r_filter_some hs]

/-- The tokens do not depend on the fuel, once it exceeds the length. -/
theorem strtok_all_fuel (delim : List Char) :
    ∀ (f1 f2 : Nat) (s : List Char), s.length < f1 → s.length < f2 →
      strtok_all delim f1 s = strtok_all delim f2 s := by
  intro f1
  induction f1 with
  | zero => intro f2 s h; exact absurd h (Nat.not_lt_zero _)
  | succ n ih =>
    intro f2 s h1 h2
    cases f2 with
    | zero => exact absurd h2 (Nat.not_lt_zero _)
    | succ m =>
      unfold strtok_all
      cases hs : strtok_r s delim with
      | none => rfl
      | some tr =>
        obtain ⟨t, r⟩ := tr
        have hlen := strtok_r_length hs
        simp only
        rw [ih m r (by omega) (by omega)]

/-! ## The loop of `process_key_value` -/

/-- The text after the key: tokens that are no internal macros are appended
as they are. -/
theorem process_key_value_loop_rest (E : Env) (tmpl_list : List Template) :
    ∀ (fuel : Nat) (s acc : List Char), s.length < fuel →
      (∀ t ∈ strtok_all TEMPLATE_KEY_MACRO_SUB_DELIMS fuel s, is_internal_macro E t = false) →
      process_key_value_loop E tmpl_list fuel (some acc) false s
        = .ok (some (acc ++ (strtok_all TEMPLATE_KEY_MACRO_SUB_DELIMS fuel s).flatten)) := by
  intro fuel
  induction fuel with
  | zero => intro s acc h; exact absurd h (Nat.not_lt_zero _)
  | succ n ih =>
    intro s acc h hint
    unfold process_key_value_loop
    unfold strtok_all at hint ⊢
    cases hs : strtok_r s TEMPLATE_KEY_MACRO_SUB_DELIMS with
    | none => simp only [List.flatten_nil, List.append_nil]
    | some tr =>
      obtain ⟨t, r⟩ := tr
      have hlen := strtok_r_length hs
      rw [hs] at hint
      have ht : is_internal_macro E t = false := hint t (List.mem_cons_self _ _)
      simp only [ht, Bool.false_eq_true, if_false, append_to_string, List.flatten_cons]
      rw [ih r (acc ++ t) (by omega) (fun u hu => hint u (List.mem_cons_of_mem _ hu))]
      simp only [List.append_assoc]

theorem not_dollar {p : List Char} (h : '$' ∉ p) :
    ∀ c ∈ p, TEMPLATE_KEY_MACRO_DELIM.contains c = false := by
  intro c hc
  have : c ≠ '$' := fun e => h (e ▸ hc)
  simp [TEMPLATE_KEY_MACRO_DELIM, this]

theorem not_brace {p : List Char} (h1 : '{' ∉ p) (h2 : '}' ∉ p) :
    ∀ c ∈ p, TEMPLATE_KEY_MACRO_SUB_DELIMS.contains c = false := by
  intro c hc
  have a : c ≠ '{' := fun e => h1 (e ▸ hc)
  have b : c ≠ '}' := fun e => h2 (e ▸ hc)
  simp [TEMPLATE_KEY_MACRO_SUB_DELIMS, a, b]

theorem strtok_all_single {delim s : List Char} {fuel : Nat} (hne : s ≠ [])
    (hs : ∀ c ∈ s, delim.contains c = false) (hf : s.length < fuel) :
    strtok_all delim fuel s = [s] := by
  have hlen : 0 < s.length := List.length_pos.2 hne
  obtain ⟨m, rfl⟩ : ∃ m, fuel = m + 2 := ⟨fuel - 2, by omega⟩
  simp only [strtok_all, strtok_r_last hne hs, strtok_r_nil]

/-! ## One reference -/

/-- The first iteration of the loop of `process_key_value` on a fragment
that starts with a key in braces. -/
theorem process_key_value_loop_key (E : Env) (tmpl_list : List Template) (n : Nat)
    (acc k s : List Char) (hk : k ≠ []) (h1 : '{' ∉ k) (h2 : '}' ∉ k) :
    process_key_value_loop E tmpl_list (n + 1) (some acc) true ('{' :: (k ++ '}' :: s)) =
      if is_internal_macro E k then
        process_key_value_loop E tmpl_list n (some (acc ++ macro_form k)) false s
      else
        match template_get_value tmpl_list k with
        | .error e => .error (.Errno e)
        | .ok v => process_key_value_loop E tmpl_list n (some (acc ++ v)) false s := by
  have htok : strtok_r ('{' :: (k ++ '}' :: s)) TEMPLATE_KEY_MACRO_SUB_DELIMS = some (k, s) := by
    rw [strtok_r_skip _ (by decide)]
    exact strtok_r_token s hk (not_brace h1 h2) (by decide)
  rw [process_key_value_loop, htok]
  by_cases hi : is_internal_macro E k = true
  · simp only [hi, if_true, append_to_string]
  · have hi2 : is_internal_macro E k = false := by simpa using hi
    simp only [hi2, Bool.false_eq_true, if_false, if_true]
    cases template_get_value tmpl_list k with
    | error e => rfl
    | ok v => rfl

theorem process_key_value_key (E : Env) (tmpl_list : List Template) (acc k s : List Char)
    (hk : k ≠ []) (h1 : '{' ∉ k) (h2 : '}' ∉ k) :
    process_key_value E tmpl_list (some acc) ('{' :: (k ++ '}' :: s)) =
      if is_internal_macro E k then
        process_key_value_loop E tmpl_list (k.length + s.length + 2)
          (some (acc ++ macro_form k)) false s
      else
        match template_get_value tmpl_list k with
        | .error e => .error (.Errno e)
        | .ok v =>
          process_key_value_loop E tmpl_list (k.length + s.length + 2) (some (acc ++ v)) false s := by
  have hfuel : ('{' :: (k ++ '}' :: s)).length + 1 = (k.length + s.length + 2) + 1 := by
    simp only [List.length_cons, List.length_append]; omega
  unfold process_key_value
  rw [hfuel]
  exact process_key_value_loop_key E tmpl_list _ acc k s hk h1 h2

theorem template_replace_keys_loop_nil (E : Env) (tmpl_list : List Template) (n : Nat)
    (new_string : Option (List Char)) (first : Bool) :
    template_replace_keys_loop E tmpl_list (n + 1) new_string first [] = .ok new_string := by
  rw [template_replace_keys_loop, strtok_r_nil]

/-- The first iteration of the loop of `template_replace_keys`: the text
before the first `$` is copied. -/
theorem template_replace_keys_loop_first (E : Env) (tmpl_list : List Template) (n : Nat)
    (p x : List Char) (hp : p ≠ []) (hpd : '$' ∉ p) :
    template_replace_keys_loop E tmpl_list (n + 1) none true (p ++ '$' :: x) =
      template_replace_keys_loop E tmpl_list n (some p) false x := by
  rw [template_replace_keys_loop, strtok_r_token x hp (not_dollar hpd) (by decide)]
  simp only [Bool.not_true, Bool.false_eq_true, if_false, append_to_string]

/-- A line that starts with literal text followed by `$`: after the first
iteration the loop goes on behind the `$`. -/
theorem template_replace_keys_first (E : Env) (tmpl_list : List Template) (p x : List Char)
    (hp : p ≠ []) (hpd : '$' ∉ p) :
    template_replace_keys E tmpl_list (p ++ '$' :: x) =
      match template_replace_keys_loop E tmpl_list (p.length + x.length + 1) (some p) false x with
      | .error e => .error e
      | .ok none => .error .NoMessage
      | .ok (some s) => .ok s := by
  have hne : p ++ '$' :: x ≠ [] := by
    intro h
    exact hp (List.append_eq_nil.1 h).1
  have hchr : (strchr (p ++ '$' :: x) '$').isNone = false := by
    rw [strchr_append_cons x hpd]; rfl
  have hhead : ¬ ((p ++ '$' :: x).head? = some '$') := by
    cases p with
    | nil => exact absurd rfl hp
    | cons c cs =>
      intro h
      simp only [List.cons_append, List.head?_cons, Option.some.injEq] at h
      exact hpd (h ▸ List.mem_cons_self _ _)
  have hfuel : (p ++ '$' :: x).length + 1 = (p.length + x.length + 1) + 1 := by
    simp only [List.length_cons, List.length_append]; omega
  unfold template_replace_keys
  rw [if_neg hne, hchr, if_neg (by simp), if_neg hhead, hfuel,
    template_replace_keys_loop_first E tmpl_list _ p x hp hpd]

/-- One iteration of the loop of `template_replace_keys` on a fragment that
starts with `{`. -/
theorem template_replace_keys_loop_fragment (E : Env) (tmpl_list : List Template) (n : Nat)
    (acc x token rest : List Char)
    (htok : strtok_r x TEMPLATE_KEY_MACRO_DELIM = some ('{' :: token, rest)) :
    template_replace_keys_loop E tmpl_list (n + 1) (some acc) false x =
      match process_key_value E tmpl_list (some acc) ('{' :: token) with
      | .error (.Errno e) => .error (.InvalidLine e)
      | .error .OutOfFuel => .error .OutOfFuel
      | .ok none => .error (.InvalidLine 0)
      | .ok (some s') => template_replace_keys_loop E tmpl_list n (some s') false rest := by
  rw [template_replace_keys_loop, htok]
  simp

theorem line_shape (p k s : List Char) :
    p ++ macro_form k ++ s = p ++ '$' :: ('{' :: (k ++ '}' :: s)) := by
  simp [macro_form]

/-- One iteration of the loop of `template_replace_keys` on the fragment
`{k}s`, which ends at the end of the line or at the next `$`. -/
theorem template_replace_keys_loop_ref (E : Env) (tmpl_list : List Template) (n : Nat)
    (acc k s rest : List Char) (hkd : '$' ∉ k) (hsd : '$' ∉ s)
    (hrest : rest = [] ∨ ∃ r, rest = '$' :: r) :
    template_replace_keys_loop E tmpl_list (n + 1) (some acc) false
        ('{' :: (k ++ '}' :: s) ++ rest) =
      match process_key_value E tmpl_list (some acc) ('{' :: (k ++ '}' :: s)) with
      | .error (.Errno e) => .error (.InvalidLine e)
      | .error .OutOfFuel => .error .OutOfFuel
      | .ok none => .error (.InvalidLine 0)
      | .ok (some s') => template_replace_keys_loop E tmpl_list n (some s') false rest.tail := by
  have htd : '$' ∉ '{' :: (k ++ '}' :: s) := by
    simp only [List.mem_cons, List.mem_append, not_or]
    exact ⟨by decide, hkd, by decide, hsd⟩
  apply template_replace_keys_loop_fragment
  rcases hrest with h | ⟨r, h⟩
  · subst h
    rw [List.append_nil]
    exact strtok_r_last (by simp) (not_dollar htd)
  · subst h
    exact strtok_r_token r (by simp) (not_dollar htd) (by decide)

theorem template_get_value_missing {tmpl_list : List Template} {k : List Char} (hk : k ≠ [])
    (h : ∀ t ∈ tmpl_list, t.key ≠ k) : template_get_value tmpl_list k = .error ENOKEY := by
  have hf : tmpl_list.find? (fun t => k == t.key) = none := by
    rw [List.find?_eq_none]
    intro t ht
    have := h t ht
    simpa using fun e : k = t.key => this e.symm
  simp only [template_get_value, template_get, if_neg hk, hf]

theorem split_at_dollar (s : List Char) :
    ∃ s1 rest, s = s1 ++ rest ∧ '$' ∉ s1 ∧ (rest = [] ∨ ∃ r, rest = '$' :: r) := by
  induction s with
  | nil => exact ⟨[], [], rfl, by simp, Or.inl rfl⟩
  | cons c cs ih =>
    by_cases hc : c = '$'
    · exact ⟨[], c :: cs, rfl, by simp, Or.inr ⟨cs, by rw [hc]⟩⟩
    · obtain ⟨s1, rest, h1, h2, h3⟩ := ih
      refine ⟨c :: s1, rest, by rw [h1]; rfl, ?_, h3⟩
      simp only [List.mem_cons, not_or]
      exact ⟨fun e => hc e.symm, h2⟩

/-- A line with one reference whose key is neither internal nor registered. -/
theorem replace_missing_key (E : Env) (tmpl_list : List Template) (p k s : List Char)
    (hp : p ≠ []) (hpd : '$' ∉ p) (hk : k ≠ []) (hkd : '$' ∉ k) (h1 : '{' ∉ k) (h2 : '}' ∉ k)
    (hi : is_internal_macro E k = false) (hreg : ∀ t ∈ tmpl_list, t.key ≠ k) :
    template_replace_keys E tmpl_list (p ++ macro_form k ++ s) = .error (.InvalidLine ENOKEY) := by
  obtain ⟨s1, rest, hs, hs1, hrest⟩ := split_at_dollar s
  have hshape : p ++ macro_form k ++ s = p ++ '$' :: ('{' :: (k ++ '}' :: s1) ++ rest) := by
    rw [line_shape, hs]; simp
  rw [hshape, template_replace_keys_first E tmpl_list p _ hp hpd,
    template_replace_keys_loop_ref E tmpl_list _ p k s1 rest hkd hs1 hrest,
    process_key_value_key E tmpl_list p k s1 hk h1 h2, hi,
    template_get_value_missing hk hreg]
  rfl

/-- A line with one reference and no further `$`: the outcome is the one of
`process_key_value` on the fragment. -/
theorem replace_one_ref (E : Env) (tmpl_list : List Template) (p k s out : List Char)
    (hp : p ≠ []) (hpd : '$' ∉ p) (hkd : '$' ∉ k) (hsd : '$' ∉ s)
    (hpk : process_key_value E tmpl_list (some p) ('{' :: (k ++ '}' :: s)) = .ok (some out)) :
    template_replace_keys E tmpl_list (p ++ macro_form k ++ s) = .ok out := by
  have hshape : p ++ macro_form k ++ s = p ++ '$' :: ('{' :: (k ++ '}' :: s) ++ []) := by
    rw [line_shape]; simp
  have hfuel : p.length + ('{' :: (k ++ '}' :: s) ++ []).length + 1
      = (p.length + k.length + s.length + 1 + 1) + 1 := by
    simp only [List.length_cons, List.length_append, List.length_nil]; omega
  rw [hshape, template_replace_keys_first E tmpl_list p _ hp hpd, hfuel,
    template_replace_keys_loop_ref E tmpl_list _ p k s [] hkd hsd (Or.inl rfl), hpk]
  simp only [List.tail_nil]
  rw [template_replace_keys_loop_nil]

/-- The text after the key, when none of its tokens is an internal macro. -/
theorem process_key_value_loop_tail (E : Env) (tmpl_list : List Template) (fuel : Nat)
    (s acc : List Char) (hf : s.length < fuel)
    (hs : ∀ t ∈ strtok_all TEMPLATE_KEY_MACRO_SUB_DELIMS (s.length + 1) s,
      is_internal_macro E t = false) :
    process_key_value_loop E tmpl_list fuel (some acc) false s
      = .ok (some (acc ++ s.filter (fun c => !TEMPLATE_KEY_MACRO_SUB_DELIMS.contains c))) := by
  have hfu := strtok_all_fuel TEMPLATE_KEY_MACRO_SUB_DELIMS fuel (s.length + 1) s hf
    (Nat.lt_succ_self _)
  rw [process_key_value_loop_rest E tmpl_list fuel s acc hf (by rw [hfu]; exact hs),
    strtok_all_join _ fuel s hf]

/-- A line with one reference to a registered key. -/
theorem replace_registered_key (E : Env) (tmpl_list : List Template) (p k v s : List Char)
    (hp : p ≠ []) (hpd : '$' ∉ p) (hk : k ≠ []) (hkd : '$' ∉ k) (h1 : '{' ∉ k) (h2 : '}' ∉ k)
    (hi : is_internal_macro E k = false) (hv : template_get_value tmpl_list k = .ok v)
    (hsd : '$' ∉ s)
    (hs : ∀ t ∈ strtok_all TEMPLATE_KEY_MACRO_SUB_DELIMS (s.length + 1) s,
      is_internal_macro E t = false) :
    template_replace_keys E tmpl_list (p ++ macro_form k ++ s)
      = .ok (p ++ v ++ s.filter (fun c => !TEMPLATE_KEY_MACRO_SUB_DELIMS.contains c)) := by
  apply replace_one_ref E tmpl_list p k s _ hp hpd hkd hsd
  rw [process_key_value_key E tmpl_list p k s hk h1 h2, hi, hv]
  exact process_key_value_loop_tail E tmpl_list _ s (p ++ v) (by omega) hs

/-- A line with one reference to an internal macro. -/
theorem replace_internal_key (E : Env) (tmpl_list : List Template) (p k s : List Char)
    (hp : p ≠ []) (hpd : '$' ∉ p) (hk : k ≠ []) (hkd : '$' ∉ k) (h1 : '{' ∉ k) (h2 : '}' ∉ k)
    (hi : is_internal_macro E k = true) (hsd : '$' ∉ s)
    (hs : ∀ t ∈ strtok_all TEMPLATE_KEY_MACRO_SUB_DELIMS (s.length + 1) s,
      is_internal_macro E t = false) :
    template_replace_keys E tmpl_list (p ++ macro_form k ++ s)
      = .ok (p ++ macro_form k ++ s.filter (fun c => !TEMPLATE_KEY_MACRO_SUB_DELIMS.contains c)) := by
  apply replace_one_ref E tmpl_list p k s _ hp hpd hkd hsd
  rw [process_key_value_key E tmpl_list p k s hk h1 h2, hi]
  exact process_key_value_loop_tail E tmpl_list _ s (p ++ macro_form k) (by omega) hs

/-! ## Keys that pass the check -/

theorem isalnum_not_delim {c : Char} (h : isalnum c = true) : c ≠ '$' ∧ c ≠ '{' ∧ c ≠ '}' := by
  refine ⟨?_, ?_, ?_⟩ <;> · rintro rfl; revert h; decide

theorem isalpha_isalnum {c : Char} (h : isalpha c = true) : isalnum c = true := by
  simp [isalnum, h]

/-- A key accepted by `is_valid_str` is not empty and holds no delimiter of
the expander. -/
theorem valid_key_plain {E : Env} {k : List Char}
    (h : is_valid_str E (some k) .STR_CHECK_ALNUM = true) :
    k ≠ [] ∧ '$' ∉ k ∧ '{' ∉ k ∧ '}' ∉ k := by
  cases k with
  | nil => simp [is_valid_str] at h
  | cons c cs =>
    simp only [is_valid_str, Bool.and_eq_true, List.all_eq_true, Bool.not_eq_true'] at h
    obtain ⟨hc, hcs⟩ := h
    have hall : ∀ x ∈ c :: cs, isalnum x = true := by
      intro x hx
      rcases List.mem_cons.1 hx with e | e
      · rw [e]; exact isalpha_isalnum hc
      · exact (hcs x e).2
    refine ⟨by simp, ?_, ?_, ?_⟩
    · intro hm; exact (isalnum_not_delim (hall _ hm)).1 rfl
    · intro hm; exact (isalnum_not_delim (hall _ hm)).2.1 rfl
    · intro hm; exact (isalnum_not_delim (hall _ hm)).2.2 rfl

/-- What a call of `check_template` that returns has checked and done. -/
theorem check_template_ok {E : Env} {tmpl_list tmpl_list' : List Template} {arg : List Char}
    (h : check_template E tmpl_list arg = .ok tmpl_list') :
    ∃ key value rest rest',
      strtok_r arg TEMPLATE_KEY_VALUE_DELIM = some (key, rest) ∧
      strtok_r rest TEMPLATE_KEY_VALUE_DELIM = some (value, rest') ∧
      is_valid_str E (some key) .STR_CHECK_ALNUM = true ∧
      is_valid_str E (some value) .STR_CHECK_COMPAT = true ∧
      is_internal_macro E key = false ∧
      (∀ t ∈ tmpl_list, t.key ≠ key) ∧
      tmpl_list' = ⟨key, value⟩ :: tmpl_list := by
  unfold check_template at h
  cases h1 : strtok_r arg TEMPLATE_KEY_VALUE_DELIM with
  | none => simp [h1, is_valid_str] at h
  | some kr =>
    obtain ⟨key, rest⟩ := kr
    cases h2 : strtok_r rest TEMPLATE_KEY_VALUE_DELIM with
    | none =>
      simp only [h1, h2, Option.map_some', Option.some_bind, Option.map_none'] at h
      split at h
      · exact absurd h (by simp)
      · simp [is_valid_str] at h
    | some vr =>
      obtain ⟨value, rest'⟩ := vr
      simp only [h1, h2, Option.map_some', Option.some_bind, Option.getD_some] at h
      by_cases hk : is_valid_str E (some key) .STR_CHECK_ALNUM = true
      · by_cases hv : is_valid_str E (some value) .STR_CHECK_COMPAT = true
        · by_cases hi : is_internal_macro E key = true
          · simp [hk, hv, hi] at h
          · have hi2 : is_internal_macro E key = false := by simpa using hi
            simp only [hk, hv, hi2, Bool.not_true, Bool.false_eq_true, if_false] at h
            cases key with
            | nil => simp [is_valid_str] at hk
            | cons kc ks =>
              cases value with
              | nil => simp [is_valid_str] at hv
              | cons vc vs =>
                simp only [template_new, template_add] at h
                by_cases hdup : (!tmpl_list.isEmpty
                    && (template_get tmpl_list (kc :: ks)).toBool) = true
                · simp [hdup, EALREADY, EINVAL] at h
                · simp only [hdup, if_false, if_true] at h
                  refine ⟨kc :: ks, vc :: vs, rest, rest', rfl, h2, hk, hv, hi2, ?_,
                    (Except.ok.inj h).symm⟩
                  intro t ht hkey
                  apply hdup
                  have hne : tmpl_list.isEmpty = false := by
                    cases tmpl_list with
                    | nil => simp at ht
                    | cons a as => rfl
                  have hfind : (tmpl_list.find? (fun t => (kc :: ks) == t.key)).isSome := by
                    rw [List.find?_isSome]
                    exact ⟨t, ht, by simp [hkey]⟩
                  simp only [hne, Bool.not_false, Bool.true_and, template_get]
                  rw [if_neg (by simp)]
                  cases hf : tmpl_list.find? (fun t => (kc :: ks) == t.key) with
                  | none => rw [hf] at hfind; simp at hfind
                  | some t' => rfl
        · simp [hk, hv] at h
      · simp [hk] at h

/-- When the key and the value hold no `:`, a call of `check_template` with
`k:v` that returns has put the template `k`, `v` in front of the list. -/
theorem check_template_registers {E : Env} {tmpl_list tmpl_list' : List Template}
    {k v : List Char} (h : check_template E tmpl_list (k ++ ':' :: v) = .ok tmpl_list')
    (hk : ':' ∉ k) (hv : ':' ∉ v) : tmpl_list' = ⟨k, v⟩ :: tmpl_list := by
  obtain ⟨key, value, rest, rest', h1, h2, -, -, -, -, hl⟩ := check_template_ok h
  have ndk : ∀ c ∈ k, TEMPLATE_KEY_VALUE_DELIM.contains c = false := by
    intro c hc
    have : c ≠ ':' := fun e => hk (e ▸ hc)
    simp [TEMPLATE_KEY_VALUE_DELIM, this]
  have ndv : ∀ c ∈ v, TEMPLATE_KEY_VALUE_DELIM.contains c = false := by
    intro c hc
    have : c ≠ ':' := fun e => hv (e ▸ hc)
    simp [TEMPLATE_KEY_VALUE_DELIM, this]
  have hvtok : ∀ x, strtok_r v TEMPLATE_KEY_VALUE_DELIM = some x → x = (v, []) := by
    intro x hx
    by_cases hve : v = []
    · subst hve; rw [strtok_r_nil] at hx; exact absurd hx (by simp)
    · rw [strtok_r_last hve ndv] at hx
      exact (Option.some.inj hx).symm
  by_cases hke : k = []
  · subst hke
    rw [List.nil_append, strtok_r_skip _ (by decide)] at h1
    have e := hvtok _ h1
    have e2 : rest = [] := (Prod.mk.inj e).2
    subst e2
    rw [strtok_r_nil] at h2
    exact absurd h2 (by simp)
  · rw [strtok_r_token v hke ndk (by decide)] at h1
    have e := Prod.mk.inj (Option.some.inj h1)
    have e1 : key = k := e.1.symm
    have e2 : rest = v := e.2.symm
    subst e1
    subst e2
    have e3 := Prod.mk.inj (hvtok _ h2)
    rw [hl, e3.1]

theorem template_get_value_head (k v : List Char) (tmpl_list : List Template) (hk : k ≠ []) :
    template_get_value (⟨k, v⟩ :: tmpl_list) k = .ok v := by
  simp [template_get_value, template_get, hk]

theorem internal_plain {E : Env} (hE : plain_macro_names E) {n : List Char}
    (hn : is_internal_macro E n = true) : n ≠ [] ∧ '$' ∉ n ∧ '{' ∉ n ∧ '}' ∉ n := by
  simp only [ is_internal_macro, Bool.or_eq_true, bne_iff_ne, ne_eq] at hn
  rcases hn with h | h
  · have hm : n ∈ internal_keys := by simpa using h
    simp only [internal_keys, List.mem_cons, List.mem_singleton, List.not_mem_nil, or_false] at hm
    rcases hm with e | e | e | e | e <;> · subst e; decide
  · exact hE n h

theorem plain_macro_names_env0 : plain_macro_names env0 := by
  intro m h
  exact absurd rfl h

/-! ## The fuel never runs out -/

theorem process_key_value_loop_fuel (E : Env) (tmpl_list : List Template) :
    ∀ (fuel : Nat) (container : Option (List Char)) (first : Bool) (s : List Char),
      s.length < fuel →
      process_key_value_loop E tmpl_list fuel container first s ≠ .error .OutOfFuel := by
  intro fuel
  induction fuel with
  | zero => intro _ _ s h; exact absurd h (Nat.not_lt_zero _)
  | succ n ih =>
    intro container first s h
    rw [process_key_value_loop]
    cases hs : strtok_r s TEMPLATE_KEY_MACRO_SUB_DELIMS with
    | none => simp
    | some tr =>
      obtain ⟨t, r⟩ := tr
      have hlen := strtok_r_length hs
      simp only
      split
      · exact ih _ _ r (by omega)
      · split
        · simp
        · exact ih _ _ r (by omega)

theorem process_key_value_fuel (E : Env) (tmpl_list : List Template)
    (container : Option (List Char)) (str_in : List Char) :
    process_key_value E tmpl_list container str_in ≠ .error .OutOfFuel :=
  process_key_value_loop_fuel E tmpl_list _ container true str_in (Nat.lt_succ_self _)

theorem template_replace_keys_loop_fuel (E : Env) (tmpl_list : List Template) :
    ∀ (fuel : Nat) (new_string : Option (List Char)) (first : Bool) (s : List Char),
      s.length < fuel →
      template_replace_keys_loop E tmpl_list fuel new_string first s ≠ .error .OutOfFuel := by
  intro fuel
  induction fuel with
  | zero => intro _ _ s h; exact absurd h (Nat.not_lt_zero _)
  | succ n ih =>
    intro new_string first s h
    rw [template_replace_keys_loop]
    cases hs : strtok_r s TEMPLATE_KEY_MACRO_DELIM with
    | none => simp
    | some tr =>
      obtain ⟨t, r⟩ := tr
      have hlen := strtok_r_length hs
      simp only
      split
      · split
        · simp
        · have hp := process_key_value_fuel E tmpl_list new_string t
          split
          · simp
          · rename_i heq; exact absurd heq hp
          · simp
          · exact ih _ _ r (by omega)
      · split
        · simp
        · exact ih _ _ r (by omega)

/-- The expander never ends for lack of fuel. -/
theorem template_replace_keys_fuel (E : Env) (tmpl_list : List Template) (arg : List Char) :
    template_replace_keys E tmpl_list arg ≠ .error .OutOfFuel := by
  unfold template_replace_keys
  split
  · simp
  · split
    · simp
    · split
      · simp
      · have h := template_replace_keys_loop_fuel E tmpl_list (arg.length + 1) none true arg
          (Nat.lt_succ_self _)
        split
        · rename_i e heq
          intro he
          have : e = ReplaceError.OutOfFuel := Except.error.inj he
          rw [this] at heq
          exact h heq
        · simp
        · simp

/-! ## The expander: claims C1 to C7 -/

/-- C1: when `check_template` is called with `k:v` and returns with the
template `k`, `v` put in front of the list (as it does whenever it returns
and `k` and `v` hold no `:`, see `check_template_registers`), then
`template_replace_keys` turns the line `x${k}y` into `x`, then `v`, then `y`
(the text `y` not being the name of a macro of `macro_id`); and after
`DIR:/home/user/data` the line `cp ${DIR}/file dest` becomes
`cp /home/user/data/file dest`. -/
theorem C1_registered_key_is_expanded (E : Env) (tmpl_list : List Template) (k v : List Char)
    (hreg : check_template E tmpl_list (k ++ ':' :: v) = .ok (⟨k, v⟩ :: tmpl_list)) :
    ( is_internal_macro E "y".toList = false →
      template_replace_keys E (⟨k, v⟩ :: tmpl_list) ("x".toList ++ macro_form k ++ "y".toList)
        = .ok ("x".toList ++ v ++ "y".toList)) ∧
    (k = "DIR".toList → v = "/home/user/data".toList →
      is_internal_macro E "/file dest".toList = false →
      template_replace_keys E (⟨k, v⟩ :: tmpl_list) "cp ${DIR}/file dest".toList
        = .ok "cp /home/user/data/file dest".toList) := by
  obtain ⟨key, value, rest, rest', -, -, hk, -, hi, -, hl⟩ := check_template_ok hreg
  have hkey : k = key := by
    have := List.cons.inj hl
    exact (Template.mk.inj this.1).1
  subst hkey
  obtain ⟨hne, hd, h1, h2⟩ := valid_key_plain hk
  have hv := template_get_value_head k v tmpl_list hne
  constructor
  · intro hy
    have h := replace_registered_key E (⟨k, v⟩ :: tmpl_list) "x".toList k v "y".toList
      (by decide) (by decide) hne hd h1 h2 hi hv (by decide)
      (by
        intro t ht
        have : t = "y".toList := by
          rw [strtok_all_single (by decide) (by decide) (by decide)] at ht
          simpa using ht
        rw [this]; exact hy)
    rw [h]
    rfl
  · intro ek ev hs
    subst ek
    subst ev
    have h := replace_registered_key E (⟨"DIR".toList, "/home/user/data".toList⟩ :: tmpl_list)
      "cp ".toList "DIR".toList "/home/user/data".toList "/file dest".toList
      (by decide) (by decide) hne hd h1 h2 hi hv (by decide)
      (by
        intro t ht
        have : t = "/file dest".toList := by
          rw [strtok_all_single (by decide) (by decide) (by decide)] at ht
          simpa using ht
        rw [this]; exact hs)
    exact h

/-- C1, at the key `DIR` and the value `/home/user/data`. -/
theorem C1_registered_key_is_expanded_witness :
    check_template env0 [] "DIR:/home/user/data".toList
        = .ok [⟨"DIR".toList, "/home/user/data".toList⟩] ∧
      template_replace_keys env0 [⟨"DIR".toList, "/home/user/data".toList⟩] "x${DIR}y".toList
        = .ok "x/home/user/datay".toList ∧
      template_replace_keys env0 [⟨"DIR".toList, "/home/user/data".toList⟩]
          "cp ${DIR}/file dest".toList
        = .ok "cp /home/user/data/file dest".toList :=
  ⟨rfl,
    (C1_registered_key_is_expanded env0 [] "DIR".toList "/home/user/data".toList rfl).1 rfl,
    (C1_registered_key_is_expanded env0 [] "DIR".toList "/home/user/data".toList rfl).2
      rfl rfl rfl⟩

/-- C2, as claimed, fails: with `FOO` registered, the text `HOME` after
`${FOO}` comes back as `${HOME}`, and the braces of the text `a}b` after
`${FOO}` are lost. -/
theorem C2_text_after_reference_counterexample :
    template_get_value [⟨"FOO".toList, "v".toList⟩] "FOO".toList = .ok "v".toList ∧
      '$' ∉ "x".toList ∧ '$' ∉ "HOME".toList ∧ '$' ∉ ['a', '}', 'b'] ∧
      template_replace_keys env0 [⟨"FOO".toList, "v".toList⟩]
          ("x".toList ++ macro_form "FOO".toList ++ "HOME".toList)
        = .ok "xv${HOME}".toList ∧
      template_replace_keys env0 [⟨"FOO".toList, "v".toList⟩]
          ("x".toList ++ macro_form "FOO".toList ++ "HOME".toList)
        ≠ .ok ("x".toList ++ "v".toList ++ "HOME".toList) ∧
      template_replace_keys env0 [⟨"FOO".toList, "v".toList⟩]
          ("x".toList ++ macro_form "FOO".toList ++ ['a', '}', 'b'])
        = .ok "xvab".toList ∧
      template_replace_keys env0 [⟨"FOO".toList, "v".toList⟩]
          ("x".toList ++ macro_form "FOO".toList ++ ['a', '}', 'b'])
        ≠ .ok ("x".toList ++ "v".toList ++ ['a', '}', 'b']) :=
  ⟨rfl, by decide, by decide, by decide, rfl, by decide, rfl, by decide⟩

/-- C2, amended: for a key `k` that is registered with value `v`, holds no
`$`, `{`, `}` and is no internal macro, a non-empty text `p` without `$` and
a text `s` without `$` none of whose tokens between braces is an internal
macro, `template_replace_keys` turns `p${k}s` into `p`, then `v`, then `s`
without its braces; that is `s` itself when `s` holds no brace. -/
theorem C2_text_after_reference (E : Env) (tmpl_list : List Template) (k v p s : List Char)
    (hv : template_get_value tmpl_list k = .ok v)
    (hkd : '$' ∉ k) (h1 : '{' ∉ k) (h2 : '}' ∉ k) (hi : is_internal_macro E k = false)
    (hp : p ≠ []) (hpd : '$' ∉ p) (hsd : '$' ∉ s)
    (hs : ∀ t ∈ strtok_all TEMPLATE_KEY_MACRO_SUB_DELIMS (s.length + 1) s,
      is_internal_macro E t = false) :
    template_replace_keys E tmpl_list (p ++ macro_form k ++ s)
        = .ok (p ++ v ++ s.filter (fun c => !TEMPLATE_KEY_MACRO_SUB_DELIMS.contains c)) ∧
      ('{' ∉ s → '}' ∉ s →
        template_replace_keys E tmpl_list (p ++ macro_form k ++ s) = .ok (p ++ v ++ s)) := by
  have hk : k ≠ [] := by
    intro e
    subst e
    simp [template_get_value, template_get] at hv
  have h := replace_registered_key E tmpl_list p k v s hp hpd hk hkd h1 h2 hi hv hsd hs
  refine ⟨h, ?_⟩
  intro b1 b2
  rw [h]
  have : s.filter (fun c => !TEMPLATE_KEY_MACRO_SUB_DELIMS.contains c) = s := by
    rw [List.filter_eq_self]
    intro c hc
    rw [not_brace b1 b2 c hc]
    rfl
  rw [this]

/-- C2, amended, at the key `FOO`, the text `cp ` before and the texts
`/a}b` and `/file` after the reference. -/
theorem C2_text_after_reference_witness :
    template_replace_keys env0 [⟨"FOO".toList, "/srv".toList⟩]
        ("cp ".toList ++ macro_form "FOO".toList ++ ['/', 'a', '}', 'b'])
      = .ok "cp /srv/ab".toList ∧
    template_replace_keys env0 [⟨"FOO".toList, "/srv".toList⟩]
        ("cp ".toList ++ macro_form "FOO".toList ++ "/file".toList)
      = .ok "cp /srv/file".toList :=
  ⟨(C2_text_after_reference env0 [⟨"FOO".toList, "/srv".toList⟩] "FOO".toList "/srv".toList
      "cp ".toList ['/', 'a', '}', 'b'] rfl (by decide) (by decide) (by decide) rfl
      (by decide) (by decide) (by decide) (by decide)).1,
    (C2_text_after_reference env0 [⟨"FOO".toList, "/srv".toList⟩] "FOO".toList "/srv".toList
      "cp ".toList "/file".toList rfl (by decide) (by decide) (by decide) rfl
      (by decide) (by decide) (by decide) (by decide)).2 (by decide) (by decide)⟩

/-- C3, as claimed, fails at the empty line, for which `NULL` is returned. -/
theorem C3_line_without_dollar_counterexample :
    '$' ∉ ([] : List Char) ∧ template_replace_keys env0 [] [] = .error .NoMessage ∧
      template_replace_keys env0 [] [] ≠ .ok [] :=
  ⟨by decide, rfl, by decide⟩

/-- C3, amended: for a line without `$`, `template_replace_keys` returns a
copy of the line when the line is not empty, and `NULL` without a message
when it is empty. -/
theorem C3_line_without_dollar (E : Env) (tmpl_list : List Template) (s : List Char)
    (hs : '$' ∉ s) :
    template_replace_keys E tmpl_list s = if s = [] then .error .NoMessage else .ok s := by
  unfold template_replace_keys
  by_cases h : s = []
  · rw [if_pos h, if_pos h]
  · rw [if_neg h, if_neg h, strchr_eq_none hs]
    rfl

/-- C3, amended, at the line `private-bin sh`. -/
theorem C3_line_without_dollar_witness :
    '$' ∉ "private-bin sh".toList ∧
      template_replace_keys env0 [] "private-bin sh".toList = .ok "private-bin sh".toList :=
  ⟨by decide, C3_line_without_dollar env0 [] "private-bin sh".toList (by decide)⟩

/-- C4: when the names known to `macro_id` hold no `$`, `{`, `}` and the
text `y` is not one of them, then for every name `n` that `is_internal_macro`
accepts and every list of templates `template_replace_keys` returns the line
`x${n}y` as it is. -/
theorem C4_internal_reference_is_kept (E : Env) (tmpl_list : List Template) (n : List Char)
    (hE : plain_macro_names E) (hy : is_internal_macro E "y".toList = false)
    (hn : is_internal_macro E n = true) :
    template_replace_keys E tmpl_list ("x".toList ++ macro_form n ++ "y".toList)
      = .ok ("x".toList ++ macro_form n ++ "y".toList) := by
  obtain ⟨hne, hd, h1, h2⟩ := internal_plain hE hn
  exact replace_internal_key E tmpl_list "x".toList n "y".toList
    (by decide) (by decide) hne hd h1 h2 hn (by decide)
    (by
      intro t ht
      have : t = "y".toList := by
        rw [strtok_all_single (by decide) (by decide) (by decide)] at ht
        simpa using ht
      rw [this]; exact hy)

/-- C4, at the name `HOME`, with a template `HOME` in the list. -/
theorem C4_internal_reference_is_kept_witness :
    is_internal_macro env0 "HOME".toList = true ∧
      template_replace_keys env0 [⟨"HOME".toList, "/root".toList⟩] "x${HOME}y".toList
        = .ok "x${HOME}y".toList :=
  ⟨rfl, C4_internal_reference_is_kept env0 [⟨"HOME".toList, "/root".toList⟩] "HOME".toList
    plain_macro_names_env0 rfl rfl⟩

/-- C5, evaluated: the line `a${b`, whose fragment `{b` has no closing brace,
is not refused as unterminated; it is expanded to `av` when `b` is registered
with value `v`, and refused with `ENOKEY` when `b` is not registered. -/
theorem C5_unterminated_reference_evaluated :
    template_replace_keys env0 [⟨"b".toList, "v".toList⟩] ['a', '$', '{', 'b']
        = .ok "av".toList ∧
      template_replace_keys env0 [] ['a', '$', '{', 'b'] = .error (.InvalidLine ENOKEY) ∧
      template_replace_keys env0 [] ['a', '$', 'b', '}'] = .error (.InvalidLine ENOKEY) ∧
      template_replace_keys env0 [] ['a', '$', 'b'] = .error .Unterminated :=
  ⟨rfl, rfl, rfl, rfl⟩

/-- C6, as claimed, fails at the line `${nope}`: it starts with `$` and is
refused for that, before any key is looked up. -/
theorem C6_missing_key_counterexample :
    is_internal_macro env0 "nope".toList = false ∧
      template_replace_keys env0 [] "${nope}".toList = .error .StartsWithDollar ∧
      template_replace_keys env0 [] "${nope}".toList ≠ .error (.InvalidLine ENOKEY) :=
  ⟨rfl, rfl, by decide⟩

/-- C6, amended: for a key `k` (not empty, without `$`, `{`, `}`) that is
neither an internal macro nor the key of a template of the list, a non-empty
text `p` without `$` and any text `s`, `template_replace_keys` refuses the
line `p${k}s` with the `errno` value `ENOKEY` of `template_get`. -/
theorem C6_missing_key (E : Env) (tmpl_list : List Template) (p k s : List Char)
    (hp : p ≠ []) (hpd : '$' ∉ p) (hk : k ≠ []) (hkd : '$' ∉ k) (h1 : '{' ∉ k) (h2 : '}' ∉ k)
    (hi : is_internal_macro E k = false) (hreg : ∀ t ∈ tmpl_list, t.key ≠ k) :
    template_replace_keys E tmpl_list (p ++ macro_form k ++ s) = .error (.InvalidLine ENOKEY) :=
  replace_missing_key E tmpl_list p k s hp hpd hk hkd h1 h2 hi hreg

/-- C6, amended, at the line `a${nope}/b${FOO}` with `FOO` registered. -/
theorem C6_missing_key_witness :
    template_replace_keys env0 [⟨"FOO".toList, "v".toList⟩] "a${nope}/b${FOO}".toList
      = .error (.InvalidLine ENOKEY) :=
  C6_missing_key env0 [⟨"FOO".toList, "v".toList⟩] "a".toList "nope".toList "/b${FOO}".toList
    (by decide) (by decide) (by decide) (by decide) (by decide) (by decide) rfl (by decide)

/-- C7: a line whose first character is `$` is refused by
`template_replace_keys` with the message that the line starts with `$`,
whatever follows and whatever the list of templates holds. -/
theorem C7_line_starts_with_dollar (E : Env) (tmpl_list : List Template) (rest : List Char) :
    template_replace_keys E tmpl_list ('$' :: rest) = .error .StartsWithDollar := by
  simp [template_replace_keys, strchr]

/-! ## The loop of `template_requires_expansion` -/

theorem strchr_some {s t : List Char} {c : Char} (h : strchr s c = some t) :
    ∃ a b, s = a ++ c :: b ∧ c ∉ a ∧ t = c :: b := by
  induction s with
  | nil => simp [strchr] at h
  | cons x xs ih =>
    by_cases hx : x = c
    · simp only [strchr, hx, if_true, Option.some.injEq] at h
      exact ⟨[], xs, by rw [hx]; rfl, by simp, h.symm⟩
    · simp only [strchr, hx, if_false] at h
      obtain ⟨a, b, h1, h2, h3⟩ := ih h
      refine ⟨x :: a, b, by rw [h1]; rfl, ?_, h3⟩
      simp only [List.mem_cons, not_or]
      exact ⟨fun e => hx e.symm, h2⟩

theorem strchr_none {s : List Char} {c : Char} (h : strchr s c = none) : c ∉ s := by
  intro hm
  have := strchr_isSome_of_mem hm
  rw [h] at this
  exact absurd this (by simp)

theorem copy_key_name_length (E : Env) :
    ∀ (s : List Char) (i : Nat) (buf : List Char), (copy_key_name E i s buf).2.length ≤ s.length := by
  intro s
  induction s with
  | nil => intro i buf; simp [copy_key_name]
  | cons c cs ih =>
    intro i buf
    unfold copy_key_name
    split
    · exact Nat.le_succ_of_le (ih _ _)
    · exact Nat.le_refl _

/-- The copy loop on a name that fits into the buffer and is followed by `}`
or by the end of the line. -/
theorem copy_key_name_spec (E : Env) :
    ∀ (k : List Char) (i : Nat) (buf rest : List Char), '}' ∉ k →
      i + k.length ≤ E.DBUS_MAX_NAME_LENGTH → (rest = [] ∨ ∃ r, rest = '}' :: r) →
      copy_key_name E i (k ++ rest) buf = (buf ++ k, rest) := by
  intro k
  induction k with
  | nil =>
    intro i buf rest _ _ hrest
    rcases hrest with h | ⟨r, h⟩
    · subst h; simp [copy_key_name]
    · subst h; simp [copy_key_name]
  | cons c cs ih =>
    intro i buf rest hk hlen hrest
    have hc : c ≠ '}' := fun e => hk (by rw [e]; exact List.mem_cons_self _ _)
    have hcs : '}' ∉ cs := fun e => hk (List.mem_cons_of_mem _ e)
    simp only [List.length_cons] at hlen
    have hi : i < E.DBUS_MAX_NAME_LENGTH := by omega
    rw [List.cons_append, copy_key_name, if_pos ⟨hc, hi⟩, ih (i + 1) (buf ++ [c]) rest hcs
      (by omega) hrest]
    simp

/-- The result of the loop does not depend on the fuel, once it exceeds the
length of the text. -/
theorem scan_loop_fuel (E : Env) (tmpl_list : List Template) :
    ∀ (f1 f2 : Nat) (s : List Char), s.length < f1 → s.length < f2 →
      scan_loop E tmpl_list f1 s = scan_loop E tmpl_list f2 s := by
  intro f1
  induction f1 with
  | zero => intro f2 s h; exact absurd h (Nat.not_lt_zero _)
  | succ n ih =>
    intro f2 s h1 h2
    cases f2 with
    | zero => exact absurd h2 (Nat.not_lt_zero _)
    | succ m =>
      cases s with
      | nil => rfl
      | cons c cs =>
        simp only [List.length_cons] at h1 h2
        rw [scan_loop, scan_loop]
        by_cases hc : c = '$' ∧ cs.head? = some '{'
        · rw [if_pos hc, if_pos hc]
          have hlen := copy_key_name_length E cs.tail 0 []
          have htl : cs.tail.length ≤ cs.length := by simp
          have e := ih m (copy_key_name E 0 cs.tail []).2 (by omega) (by omega)
          simp only [e]
        · rw [if_neg hc, if_neg hc]
          exact ih m cs (by omega) (by omega)

/-- The loop passes over text that holds no `${`. -/
theorem scan_loop_text (E : Env) (tmpl_list : List Template) :
    ∀ (lit : List Char) (fuel : Nat) (x : List Char), ¬ (['$', '{'] <:+: lit) →
      (x = [] ∨ ∃ y, x = '$' :: y) → (lit ++ x).length < fuel →
      scan_loop E tmpl_list fuel (lit ++ x) = scan_loop E tmpl_list (x.length + 1) x := by
  intro lit
  induction lit with
  | nil =>
    intro fuel x _ _ h
    exact scan_loop_fuel E tmpl_list _ _ x (by simpa using h) (Nat.lt_succ_self _)
  | cons c cs ih =>
    intro fuel x hlit hx h
    cases fuel with
    | zero => exact absurd h (Nat.not_lt_zero _)
    | succ n =>
      have hcond : ¬ (c = '$' ∧ (cs ++ x).head? = some '{') := by
        rintro ⟨h1, h2⟩
        cases cs with
        | nil =>
          rcases hx with e | ⟨y, e⟩
          · subst e; simp at h2
          · subst e
            simp only [List.nil_append, List.head?_cons, Option.some.injEq] at h2
            exact absurd h2 (by decide)
        | cons d ds =>
          simp only [List.cons_append, List.head?_cons, Option.some.injEq] at h2
          apply hlit
          rw [h1, h2]
          exact ⟨[], ds, rfl⟩
      have hcs : ¬ (['$', '{'] <:+: cs) := fun e => hlit (List.infix_cons e)
      simp only [List.cons_append, List.length_cons] at h ⊢
      rw [scan_loop, if_neg hcond]
      exact ih n x hcs hx (by omega)

/-- The loop at a reference whose name fits into the buffer. -/
theorem scan_loop_ref (E : Env) (tmpl_list : List Template) (n : Nat) (k rest : List Char)
    (hk : '}' ∉ k) (hlen : k.length < E.DBUS_MAX_NAME_LENGTH)
    (hrest : rest = [] ∨ ∃ r, rest = '}' :: r) :
    scan_loop E tmpl_list (n + 1) ('$' :: '{' :: (k ++ rest)) =
      if is_internal_macro E k then scan_loop E tmpl_list n rest
      else if !(template_get tmpl_list k).toBool then .ok (-EINVAL)
      else .ok 1 := by
  rw [scan_loop, if_pos ⟨rfl, rfl⟩]
  simp only [List.tail_cons]
  rw [copy_key_name_spec E k 0 [] rest hk (by omega) hrest]
  simp only [List.nil_append, buf_string, if_pos hlen]

theorem refs_text_shape (refs : List (List Char × List Char)) (x : List Char)
    (hx : x = [] ∨ ∃ y, x = '$' :: y) :
    refs_text refs ++ x = [] ∨ ∃ y, refs_text refs ++ x = '$' :: y := by
  cases refs with
  | nil => simpa [refs_text] using hx
  | cons r rs =>
    exact Or.inr ⟨'{' :: (r.1 ++ '}' :: (r.2 ++ (refs_text rs ++ x))),
      by simp [refs_text, macro_form]⟩

theorem not_infix_of_not_mem {s : List Char} (h : '$' ∉ s) : ¬ (['$', '{'] <:+: s) := by
  rintro ⟨a, b, e⟩
  apply h
  rw [← e]
  simp

/-- The call is the loop run on the whole line. -/
theorem template_requires_expansion_eq (E : Env) (tmpl_list : List Template) (line : List Char) :
    template_requires_expansion E tmpl_list line
      = scan_loop E tmpl_list (line.length + 1) line := by
  unfold template_requires_expansion
  by_cases h : line = []
  · subst h; rfl
  · rw [if_neg h]
    cases hc : strchr line '$' with
    | none =>
      have := scan_loop_text E tmpl_list line (line.length + 1) []
        (not_infix_of_not_mem (strchr_none hc)) (Or.inl rfl) (by simp)
      rw [List.append_nil] at this
      rw [this]
      rfl
    | some ptr =>
      obtain ⟨a, b, h1, h2, h3⟩ := strchr_some hc
      subst h3
      subst h1
      exact (scan_loop_text E tmpl_list a _ ('$' :: b) (not_infix_of_not_mem h2)
        (Or.inr ⟨b, rfl⟩) (Nat.lt_succ_self _)).symm

/-- The loop on a list of references: the first key that is no internal
macro decides. -/
theorem scan_loop_refs (E : Env) (tmpl_list : List Template) :
    ∀ (refs : List (List Char × List Char)) (fuel : Nat) (x : List Char),
      (∀ r ∈ refs, '}' ∉ r.1 ∧ r.1.length < E.DBUS_MAX_NAME_LENGTH ∧ ¬ (['$', '{'] <:+: r.2)) →
      (x = [] ∨ ∃ y, x = '$' :: y) → (refs_text refs ++ x).length < fuel →
      scan_loop E tmpl_list fuel (refs_text refs ++ x) =
        match first_external E refs with
        | some k => .ok (if (template_get tmpl_list k).toBool then 1 else -EINVAL)
        | none => scan_loop E tmpl_list (x.length + 1) x := by
  intro refs
  induction refs with
  | nil =>
    intro fuel x _ _ h
    simp only [refs_text, List.nil_append, first_external] at h ⊢
    exact scan_loop_fuel E tmpl_list _ _ x h (Nat.lt_succ_self _)
  | cons r rs ih =>
    intro fuel x hrefs hx h
    obtain ⟨hk, hlen, hlit⟩ := hrefs r (List.mem_cons_self _ _)
    have hrs := fun q hq => hrefs q (List.mem_cons_of_mem _ hq)
    have hshape : refs_text (r :: rs) ++ x
        = '$' :: '{' :: (r.1 ++ '}' :: (r.2 ++ (refs_text rs ++ x))) := by
      simp [refs_text, macro_form]
    rw [hshape] at h ⊢
    cases fuel with
    | zero => exact absurd h (Nat.not_lt_zero _)
    | succ n =>
      rw [scan_loop_ref E tmpl_list n r.1 _ hk hlen (Or.inr ⟨_, rfl⟩)]
      by_cases hi : is_internal_macro E r.1 = true
      · have hlit2 : ¬ (['$', '{'] <:+: '}' :: r.2) := by
          intro e
          rcases List.infix_cons_iff.1 e with e1 | e1
          · obtain ⟨t, ht⟩ := e1
            simp only [List.cons_append, List.cons.injEq] at ht
            exact absurd ht.1 (by decide)
          · exact hlit e1
        simp only [List.length_cons, List.length_append] at h
        have e := scan_loop_text E tmpl_list ('}' :: r.2) n (refs_text rs ++ x) hlit2
          (refs_text_shape rs x hx) (by simp only [List.length_cons, List.length_append]; omega)
        rw [List.cons_append] at e
        rw [if_pos hi, e, ih _ x hrs hx (Nat.lt_succ_self _)]
        simp only [first_external, hi, if_true]
      · have hi2 : is_internal_macro E r.1 = false := by simpa using hi
        simp only [first_external, hi2, Bool.false_eq_true, if_false]
        cases (template_get tmpl_list r.1).toBool <;> rfl

theorem template_get_toBool_false {tmpl_list : List Template} {k : List Char}
    (h : ∀ t ∈ tmpl_list, t.key ≠ k) : (template_get tmpl_list k).toBool = false := by
  unfold template_get
  by_cases hk : k = []
  · rw [if_pos hk]; rfl
  · have hf : tmpl_list.find? (fun t => k == t.key) = none := by
      rw [List.find?_eq_none]
      intro t ht
      have := h t ht
      simpa using fun e : k = t.key => this e.symm
    rw [if_neg hk, hf]
    rfl

theorem template_get_toBool_true {tmpl_list : List Template} {k : List Char} (hk : k ≠ [])
    (h : ∃ t ∈ tmpl_list, t.key = k) : (template_get tmpl_list k).toBool = true := by
  obtain ⟨t, ht, e⟩ := h
  unfold template_get
  rw [if_neg hk]
  cases hf : tmpl_list.find? (fun t => k == t.key) with
  | none =>
    rw [List.find?_eq_none] at hf
    exact absurd (by simp [e]) (hf t ht)
  | some t' => rfl

theorem template_get_toBool_mem {tmpl_list : List Template} {k : List Char}
    (h : (template_get tmpl_list k).toBool = true) : k ≠ [] ∧ ∃ t ∈ tmpl_list, t.key = k := by
  unfold template_get at h
  by_cases hk : k = []
  · rw [if_pos hk] at h; exact absurd h (by decide)
  · refine ⟨hk, ?_⟩
    rw [if_neg hk] at h
    cases hf : tmpl_list.find? (fun t => k == t.key) with
    | none => rw [hf] at h; exact absurd h (by decide)
    | some t' =>
      have h1 := List.find?_some hf
      have h2 := List.mem_of_find?_eq_some hf
      exact ⟨t', h2, by simpa using Eq.symm (by simpa using h1)⟩

/-- What the copy loop has done, whatever the text: it copied a name
without `}` and stopped at the end of the line, at a `}` or because the
buffer was full. -/
theorem copy_key_name_inv (E : Env) :
    ∀ (s : List Char) (i : Nat) (buf : List Char),
      ∃ name, (copy_key_name E i s buf).1 = buf ++ name ∧
        s = name ++ (copy_key_name E i s buf).2 ∧ '}' ∉ name ∧
        ((copy_key_name E i s buf).2 = [] ∨ (∃ r, (copy_key_name E i s buf).2 = '}' :: r) ∨
          E.DBUS_MAX_NAME_LENGTH ≤ i + name.length) := by
  intro s
  induction s with
  | nil => intro i buf; exact ⟨[], by simp [copy_key_name]⟩
  | cons c cs ih =>
    intro i buf
    by_cases hc : c ≠ '}' ∧ i < E.DBUS_MAX_NAME_LENGTH
    · obtain ⟨name, h1, h2, h3, h4⟩ := ih (i + 1) (buf ++ [c])
      refine ⟨c :: name, ?_, ?_, ?_, ?_⟩
      · rw [copy_key_name, if_pos hc, h1]; simp
      · rw [copy_key_name, if_pos hc, List.cons_append, ← h2]
      · simp only [List.mem_cons, not_or]
        exact ⟨fun e => hc.1 e.symm, h3⟩
      · rw [copy_key_name, if_pos hc]
        rcases h4 with h | h | h
        · exact Or.inl h
        · exact Or.inr (Or.inl h)
        · exact Or.inr (Or.inr (by simp only [List.length_cons]; omega))
    · refine ⟨[], ?_, ?_, by simp, ?_⟩
      · rw [copy_key_name, if_neg hc]; simp
      · rw [copy_key_name, if_neg hc]; rfl
      · rw [copy_key_name, if_neg hc]
        by_cases hc1 : c = '}'
        · exact Or.inr (Or.inl ⟨cs, by rw [hc1]⟩)
        · have : ¬ i < E.DBUS_MAX_NAME_LENGTH := fun h => hc ⟨hc1, h⟩
          exact Or.inr (Or.inr (by simp only [List.length_nil]; omega))

/-- When the loop returns 1, the text holds `${`, a name that is the key of
a template, and then `}` or the end of the line. -/
theorem scan_loop_one (E : Env) (tmpl_list : List Template) :
    ∀ (fuel : Nat) (s : List Char), scan_loop E tmpl_list fuel s = .ok 1 →
      ∃ pre name post, s = pre ++ '$' :: '{' :: (name ++ post) ∧ '}' ∉ name ∧
        (post = [] ∨ ∃ r, post = '}' :: r) ∧ (template_get tmpl_list name).toBool = true := by
  intro fuel
  induction fuel with
  | zero => intro s h; simp [scan_loop] at h
  | succ n ih =>
    intro s h
    cases s with
    | nil => simp [scan_loop] at h
    | cons c cs =>
      rw [scan_loop] at h
      by_cases hc : c = '$' ∧ cs.head? = some '{'
      · rw [if_pos hc] at h
        obtain ⟨hc1, hc2⟩ := hc
        cases cs with
        | nil => simp at hc2
        | cons d ds =>
          simp only [List.head?_cons, Option.some.injEq] at hc2
          subst hc1
          subst hc2
          simp only [List.tail_cons] at h
          obtain ⟨name, h1, h2, h3, h4⟩ := copy_key_name_inv E ds 0 []
          rw [List.nil_append] at h1
          cases hb : buf_string E (copy_key_name E 0 ds []).1 with
          | none => rw [hb] at h; simp at h
          | some buf =>
            rw [hb] at h
            simp only at h
            have hbuf : buf = name ∧ name.length < E.DBUS_MAX_NAME_LENGTH := by
              unfold buf_string at hb
              rw [h1] at hb
              by_cases hl : name.length < E.DBUS_MAX_NAME_LENGTH
              · rw [if_pos hl] at hb
                exact ⟨(Option.some.inj hb).symm, hl⟩
              · rw [if_neg hl] at hb
                exact absurd hb (by simp)
            obtain ⟨hbn, hl⟩ := hbuf
            subst hbn
            have hpost : (copy_key_name E 0 ds []).2 = [] ∨
                ∃ r, (copy_key_name E 0 ds []).2 = '}' :: r := by
              rcases h4 with h | h | h
              · exact Or.inl h
              · exact Or.inr h
              · omega
            by_cases hi : is_internal_macro E buf = true
            · rw [if_pos hi] at h
              obtain ⟨pre, nm, post, e1, e2, e3, e4⟩ := ih _ h
              refine ⟨'$' :: '{' :: (buf ++ pre), nm, post, ?_, e2, e3, e4⟩
              rw [h2, e1]
              simp
            · rw [if_neg hi] at h
              by_cases hg : (template_get tmpl_list buf).toBool = true
              · refine ⟨[], buf, (copy_key_name E 0 ds []).2, ?_, h3, hpost, hg⟩
                rw [List.nil_append, ← h2]
              · have hg2 : (template_get tmpl_list buf).toBool = false := by simpa using hg
                rw [hg2] at h
                simp [EINVAL] at h
      · rw [if_neg hc] at h
        obtain ⟨pre, nm, post, e1, e2, e3, e4⟩ := ih _ h
        exact ⟨c :: pre, nm, post, by rw [e1]; rfl, e2, e3, e4⟩

theorem scan_loop_no_fuel_fault (E : Env) (tmpl_list : List Template) :
    ∀ (fuel : Nat) (s : List Char), s.length < fuel →
      scan_loop E tmpl_list fuel s ≠ .error .OutOfFuel := by
  intro fuel
  induction fuel with
  | zero => intro s h; exact absurd h (Nat.not_lt_zero _)
  | succ n ih =>
    intro s h
    cases s with
    | nil => simp [scan_loop]
    | cons c cs =>
      simp only [List.length_cons] at h
      rw [scan_loop]
      split
      · have hlen := copy_key_name_length E cs.tail 0 []
        have htl : cs.tail.length ≤ cs.length := by simp
        simp only
        split
        · simp
        · split
          · exact ih _ (by omega)
          · split <;> simp
      · exact ih cs (by omega)

/-- The scan never ends for lack of fuel: it returns a value unless a name
fills the whole buffer. -/
theorem template_requires_expansion_fuel (E : Env) (tmpl_list : List Template)
    (arg : List Char) :
    template_requires_expansion E tmpl_list arg ≠ .error .OutOfFuel := by
  rw [template_requires_expansion_eq]
  exact scan_loop_no_fuel_fault E tmpl_list _ arg (Nat.lt_succ_self _)

/-! ## The pre-flight scan: claims C8 and C10 -/

/-- C8, evaluated: with `FOO` registered and `nope` neither registered nor
an internal macro, the scan of the line `a${FOO}${nope}` returns 1 and not
`-EINVAL`, although the line has a reference to an unknown key; the same two
references in the other order, `a${nope}${FOO}`, and the unknown reference
alone, `a${nope}`, give `-EINVAL`. -/
theorem C8_unknown_reference_evaluated :
    is_internal_macro env0 "nope".toList = false ∧
      (∀ t ∈ [(⟨"FOO".toList, "v".toList⟩ : Template)], t.key ≠ "nope".toList) ∧
      template_requires_expansion env0 [⟨"FOO".toList, "v".toList⟩] "a${FOO}${nope}".toList
        = .ok 1 ∧
      template_requires_expansion env0 [⟨"FOO".toList, "v".toList⟩] "a${FOO}${nope}".toList
        ≠ .ok (-EINVAL) ∧
      template_requires_expansion env0 [⟨"FOO".toList, "v".toList⟩] "a${nope}${FOO}".toList
        = .ok (-EINVAL) ∧
      template_requires_expansion env0 [⟨"FOO".toList, "v".toList⟩] "a${nope}".toList
        = .ok (-EINVAL) :=
  ⟨rfl, by decide, rfl, by decide, rfl, rfl⟩

/-- The scan stops at the first reference of the line that names no
internal macro. After a text `p` without `${` and references to internal
macros, each followed by text without `${`, a reference `${k` that ends with
`}` or with the line, whose name `k` is no internal macro, makes
`template_requires_expansion` return `-EINVAL` when `k` is not the key of a
template and 1 when it is, whatever follows the reference. -/
theorem scan_first_external_reference (E : Env) (tmpl_list : List Template)
    (p : List Char) (refs : List (List Char × List Char)) (k rest : List Char)
    (hp : ¬ (['$', '{'] <:+: p))
    (hrefs : ∀ r ∈ refs, is_internal_macro E r.1 = true ∧ '}' ∉ r.1 ∧
      r.1.length < E.DBUS_MAX_NAME_LENGTH ∧ ¬ (['$', '{'] <:+: r.2))
    (hk : '}' ∉ k) (hlen : k.length < E.DBUS_MAX_NAME_LENGTH)
    (hi : is_internal_macro E k = false) (hrest : rest = [] ∨ ∃ r, rest = '}' :: r) :
    ((∀ t ∈ tmpl_list, t.key ≠ k) →
      template_requires_expansion E tmpl_list (p ++ refs_text refs ++ '$' :: '{' :: (k ++ rest))
        = .ok (-EINVAL)) ∧
    (k ≠ [] → (∃ t ∈ tmpl_list, t.key = k) →
      template_requires_expansion E tmpl_list (p ++ refs_text refs ++ '$' :: '{' :: (k ++ rest))
        = .ok 1) := by
  have hall : first_external E refs = none := by
    induction refs with
    | nil => rfl
    | cons r rs ih =>
      simp only [first_external, (hrefs r (List.mem_cons_self _ _)).1, if_true]
      exact ih (fun q hq => hrefs q (List.mem_cons_of_mem _ hq))
  have hscan : template_requires_expansion E tmpl_list
      (p ++ refs_text refs ++ '$' :: '{' :: (k ++ rest))
      = if !(template_get tmpl_list k).toBool then .ok (-EINVAL) else .ok 1 := by
    rw [template_requires_expansion_eq, List.append_assoc,
      scan_loop_text E tmpl_list p _ (refs_text refs ++ '$' :: '{' :: (k ++ rest)) hp
        (refs_text_shape refs _ (Or.inr ⟨_, rfl⟩)) (Nat.lt_succ_self _),
      scan_loop_refs E tmpl_list refs _ ('$' :: '{' :: (k ++ rest))
        (fun r hr => (hrefs r hr).2) (Or.inr ⟨_, rfl⟩) (Nat.lt_succ_self _), hall]
    simp only
    rw [scan_loop_ref E tmpl_list _ k rest hk hlen hrest, hi]
    rfl
  constructor
  · intro hreg
    rw [hscan, template_get_toBool_false hreg]
    rfl
  · intro hne hreg
    rw [hscan, template_get_toBool_true hne hreg]
    rfl

/-- The scan at the lines `a${HOME}/${nope}${FOO}` and `a${FOO}${nope}` with
`FOO` registered. -/
theorem scan_first_external_reference_example :
    template_requires_expansion env0 [⟨"FOO".toList, "v".toList⟩] "a${HOME}/${nope}${FOO}".toList
        = .ok (-EINVAL) ∧
      template_requires_expansion env0 [⟨"FOO".toList, "v".toList⟩] "a${FOO}${nope}".toList
        = .ok 1 :=
  ⟨(scan_first_external_reference env0 [⟨"FOO".toList, "v".toList⟩] "a".toList
      [("HOME".toList, "/".toList)] "nope".toList ('}' :: "${FOO}".toList)
      (by decide) (by decide) (by decide) (by decide) rfl (Or.inr ⟨_, rfl⟩)).1 (by decide),
    (scan_first_external_reference env0 [⟨"FOO".toList, "v".toList⟩] "a".toList
      [] "FOO".toList ('}' :: "${nope}".toList)
      (by decide) (by decide) (by decide) (by decide) rfl (Or.inr ⟨_, rfl⟩)).2 (by decide)
      (by decide)⟩

/-- The scan of a line made of a text without `${` and references, each
followed by text without `${`. -/
theorem template_requires_expansion_refs (E : Env) (tmpl_list : List Template) (p : List Char)
    (refs : List (List Char × List Char)) (hp : ¬ (['$', '{'] <:+: p))
    (hrefs : ∀ r ∈ refs, '}' ∉ r.1 ∧ r.1.length < E.DBUS_MAX_NAME_LENGTH ∧
      ¬ (['$', '{'] <:+: r.2)) :
    template_requires_expansion E tmpl_list (p ++ refs_text refs) =
      match first_external E refs with
      | some k => .ok (if (template_get tmpl_list k).toBool then 1 else -EINVAL)
      | none => .ok 0 := by
  have h1 := scan_loop_text E tmpl_list p ((p ++ refs_text refs).length + 1) (refs_text refs ++ [])
    hp (refs_text_shape refs [] (Or.inl rfl)) (by simp)
  have h2 := scan_loop_refs E tmpl_list refs ((refs_text refs ++ []).length + 1) [] hrefs
    (Or.inl rfl) (Nat.lt_succ_self _)
  rw [List.append_nil] at h1 h2
  rw [template_requires_expansion_eq, h1, h2]
  cases first_external E refs <;> rfl

/-- C10: `template_requires_expansion` returns 0 for a line without `$`; it
returns 0 for a line made of a text without `${` and references to internal
macros (names without `}` that fit into the buffer), each followed by text
without `${`; and when it returns 1 the line holds `${`, then the key of a
template, then `}` or the end of the line. -/
theorem C10_scan_results (E : Env) (tmpl_list : List Template) :
    (∀ line : List Char, '$' ∉ line → template_requires_expansion E tmpl_list line = .ok 0) ∧
    (∀ (p : List Char) (refs : List (List Char × List Char)), ¬ (['$', '{'] <:+: p) →
      (∀ r ∈ refs, is_internal_macro E r.1 = true ∧ '}' ∉ r.1 ∧
        r.1.length < E.DBUS_MAX_NAME_LENGTH ∧ ¬ (['$', '{'] <:+: r.2)) →
      template_requires_expansion E tmpl_list (p ++ refs_text refs) = .ok 0) ∧
    (∀ line : List Char, template_requires_expansion E tmpl_list line = .ok 1 →
      ∃ pre name post, line = pre ++ '$' :: '{' :: (name ++ post) ∧
        (post = [] ∨ ∃ r, post = '}' :: r) ∧ name ≠ [] ∧ '}' ∉ name ∧
        ∃ t ∈ tmpl_list, t.key = name) := by
  refine ⟨?_, ?_, ?_⟩
  · intro line h
    unfold template_requires_expansion
    by_cases hl : line = []
    · rw [if_pos hl]
    · rw [if_neg hl, strchr_eq_none h]
  · intro p refs hp hrefs
    have hall : first_external E refs = none := by
      induction refs with
      | nil => rfl
      | cons r rs ih =>
        simp only [first_external, (hrefs r (List.mem_cons_self _ _)).1, if_true]
        exact ih (fun q hq => hrefs q (List.mem_cons_of_mem _ hq))
    rw [template_requires_expansion_refs E tmpl_list p refs hp (fun r hr => (hrefs r hr).2), hall]
  · intro line h
    rw [template_requires_expansion_eq] at h
    obtain ⟨pre, name, post, e1, e2, e3, e4⟩ := scan_loop_one E tmpl_list _ line h
    obtain ⟨hne, hmem⟩ := template_get_toBool_mem e4
    exact ⟨pre, name, post, e1, e3, hne, e2, hmem⟩

/-- C10, at the lines `seccomp`, `whitelist ${HOME}/x${PATH}` and
`a${FOO}/b` with `FOO` registered. -/
theorem C10_scan_results_witness :
    template_requires_expansion env0 [⟨"FOO".toList, "v".toList⟩] "seccomp".toList = .ok 0 ∧
      template_requires_expansion env0 [⟨"FOO".toList, "v".toList⟩]
        ("whitelist ".toList ++ refs_text [("HOME".toList, "/x".toList), ("PATH".toList, [])])
        = .ok 0 ∧
      (∃ pre name post, "a${FOO}/b".toList = pre ++ '$' :: '{' :: (name ++ post) ∧
        (post = [] ∨ ∃ r, post = '}' :: r) ∧ name ≠ [] ∧ '}' ∉ name ∧
        ∃ t ∈ [(⟨"FOO".toList, "v".toList⟩ : Template)], t.key = name) :=
  ⟨(C10_scan_results env0 [⟨"FOO".toList, "v".toList⟩]).1 "seccomp".toList (by decide),
    (C10_scan_results env0 [⟨"FOO".toList, "v".toList⟩]).2.1 "whitelist ".toList
      [("HOME".toList, "/x".toList), ("PATH".toList, [])] (by decide) (by decide),
    (C10_scan_results env0 [⟨"FOO".toList, "v".toList⟩]).2.2 "a${FOO}/b".toList rfl⟩

/-! ## The expander on a list of references -/

theorem isalnum_not_iscntrl {c : Char} (h : isalnum c = true) : iscntrl c = false := by
  simp only [isalnum, isalpha, isdigit, Bool.or_eq_true, Bool.and_eq_true, decide_eq_true_eq] at h
  simp only [iscntrl, Bool.or_eq_false_iff, decide_eq_false_iff_not, beq_eq_false_iff_ne, ne_eq]
  omega

/-- What `is_valid_str` with `STR_CHECK_ALNUM` checks. -/
theorem is_valid_str_alnum (E : Env) (s : List Char) :
    (is_valid_str E (some s) .STR_CHECK_ALNUM = true ↔
      ∃ c cs, s = c :: cs ∧ isalpha c = true ∧ ∀ x ∈ cs, isalnum x = true) := by
  cases s with
  | nil => simp [is_valid_str]
  | cons c cs =>
    simp only [is_valid_str, Bool.and_eq_true, List.all_eq_true, Bool.not_eq_true']
    constructor
    · rintro ⟨h1, h2⟩
      exact ⟨c, cs, rfl, h1, fun x hx => (h2 x hx).2⟩
    · rintro ⟨c', cs', e, h1, h2⟩
      obtain ⟨e1, e2⟩ := List.cons.inj e
      subst e1
      subst e2
      exact ⟨h1, fun x hx => ⟨isalnum_not_iscntrl (h2 x hx), h2 x hx⟩⟩

/-- C11: `is_valid_str` with `STR_CHECK_ALNUM` accepts a string exactly when
it is not empty, its first character is alphabetic and every character after
the first is alphanumeric; such a string holds no control character. `NULL`
is refused. -/
theorem C11_key_validator (E : Env) (s : List Char) :
    (is_valid_str E (some s) .STR_CHECK_ALNUM = true ↔
      s ≠ [] ∧ ∃ c cs, s = c :: cs ∧ isalpha c = true ∧ ∀ x ∈ cs, isalnum x = true) ∧
    (is_valid_str E (some s) .STR_CHECK_ALNUM = true → ∀ x ∈ s, iscntrl x = false) ∧
    is_valid_str E none .STR_CHECK_ALNUM = false := by
  have hiff := is_valid_str_alnum E s
  refine ⟨?_, ?_, rfl⟩
  · constructor
    · intro h
      obtain ⟨c, cs, e, h1, h2⟩ := hiff.1 h
      exact ⟨by rw [e]; simp, c, cs, e, h1, h2⟩
    · rintro ⟨_, h⟩
      exact hiff.2 h
  · intro h x hx
    obtain ⟨c, cs, e, h1, h2⟩ := hiff.1 h
    subst e
    rcases List.mem_cons.1 hx with e | e
    · rw [e]; exact isalnum_not_iscntrl (isalpha_isalnum h1)
    · exact isalnum_not_iscntrl (h2 x e)

/-- What `is_valid_str` with `STR_CHECK_COMPAT` checks: the length and the
absence of `..` on the whole string, the characters from the second one
on. -/
theorem is_valid_str_compat (E : Env) (s : List Char) :
    is_valid_str E (some s) .STR_CHECK_COMPAT = true ↔
      ∃ c cs, s = c :: cs ∧ s.length ≤ E.DBUS_MAX_NAME_LENGTH ∧ strstr s ['.', '.'] = false ∧
        ∀ x ∈ cs, iscntrl x = false ∧ (isalnum x = true ∨ is_compat_char x = true) := by
  cases s with
  | nil => simp [is_valid_str]
  | cons c cs =>
    simp only [is_valid_str, Bool.and_eq_true, List.all_eq_true, Bool.not_eq_true',
      Bool.or_eq_true, decide_eq_false_iff_not, not_lt, gt_iff_lt]
    constructor
    · rintro ⟨⟨h1, h2⟩, h3⟩
      exact ⟨c, cs, rfl, h1, h2, h3⟩
    · rintro ⟨c', cs', e, h1, h2, h3⟩
      obtain ⟨e1, e2⟩ := List.cons.inj e
      subst e1
      subst e2
      exact ⟨⟨h1, h2⟩, h3⟩

/-- C12, evaluated: the first character of a value is not checked. The
values `$x` and the one made of the control character 7 followed by `x` are
accepted by `is_valid_str` with `STR_CHECK_COMPAT`, and `check_template`
registers `K:$x`. -/
theorem C12_value_first_character_evaluated :
    is_valid_str env0 (some "$x".toList) .STR_CHECK_COMPAT = true ∧
      isalnum '$' = false ∧ is_compat_char '$' = false ∧
      is_valid_str env0 (some [Char.ofNat 7, 'x']) .STR_CHECK_COMPAT = true ∧
      iscntrl (Char.ofNat 7) = true ∧
      check_template env0 [] "K:$x".toList = .ok [⟨"K".toList, "$x".toList⟩] :=
  ⟨rfl, rfl, rfl, rfl, rfl, rfl⟩

/-! ## The list of templates: claims C13, C18 and C19 -/

theorem template_get_value_cons_ne (t : Template) (tmpl_list : List Template) (k : List Char)
    (h : k ≠ t.key) : template_get_value (t :: tmpl_list) k = template_get_value tmpl_list k := by
  unfold template_get_value template_get
  by_cases hk : k = []
  · simp [hk]
  · have : (k == t.key) = false := by simpa using h
    simp only [if_neg hk, List.find?_cons, this]

/-- C19: for a template `t` with a non-empty key that no template of the
list has, `template_add` returns 0 and puts `t` in front of the list;
afterwards `template_get_value` returns the value of `t` for its key, and for
every other key what it returned before. -/
theorem C19_template_add_new_key (tmpl_list : List Template) (t : Template)
    (hk : t.key ≠ []) (hnew : ∀ u ∈ tmpl_list, u.key ≠ t.key) :
    (template_add tmpl_list (some t)).1 = 0 ∧
      (template_add tmpl_list (some t)).2 = t :: tmpl_list ∧
      template_get_value (template_add tmpl_list (some t)).2 t.key = .ok t.value ∧
      ∀ k, k ≠ t.key →
        template_get_value (template_add tmpl_list (some t)).2 k
          = template_get_value tmpl_list k := by
  have hadd : template_add tmpl_list (some t) = (0, t :: tmpl_list) := by
    unfold template_add
    simp only [template_get_toBool_false hnew, Bool.and_false, Bool.false_eq_true, if_false]
  rw [hadd]
  refine ⟨rfl, rfl, ?_, ?_⟩
  · exact template_get_value_head t.key t.value tmpl_list hk
  · intro k hne
    exact template_get_value_cons_ne t tmpl_list k hne

/-- C19, at the list that holds `A` and the template `B` with value `w`. -/
theorem C19_template_add_new_key_witness :
    (template_add [⟨"A".toList, "v".toList⟩] (some ⟨"B".toList, "w".toList⟩)).1 = 0 ∧
      (template_add [⟨"A".toList, "v".toList⟩] (some ⟨"B".toList, "w".toList⟩)).2
        = [⟨"B".toList, "w".toList⟩, ⟨"A".toList, "v".toList⟩] ∧
      template_get_value (template_add [⟨"A".toList, "v".toList⟩]
        (some ⟨"B".toList, "w".toList⟩)).2 "B".toList = .ok "w".toList ∧
      ∀ k, k ≠ "B".toList →
        template_get_value (template_add [⟨"A".toList, "v".toList⟩]
            (some ⟨"B".toList, "w".toList⟩)).2 k
          = template_get_value [⟨"A".toList, "v".toList⟩] k :=
  C19_template_add_new_key [⟨"A".toList, "v".toList⟩] ⟨"B".toList, "w".toList⟩
    (by decide) (by decide)

theorem template_add_keys_nodup (tmpl_list : List Template) (t : Template) (hk : t.key ≠ [])
    (h : (tmpl_list.map Template.key).Nodup) :
    ((template_add tmpl_list (some t)).2.map Template.key).Nodup := by
  unfold template_add
  simp only
  by_cases hd : (!tmpl_list.isEmpty && (template_get tmpl_list t.key).toBool) = true
  · rw [if_pos hd]
    exact h
  · rw [if_neg hd]
    simp only [List.map_cons, List.nodup_cons]
    refine ⟨?_, h⟩
    intro hm
    obtain ⟨u, hu, e⟩ := List.mem_map.1 hm
    apply hd
    have hne : tmpl_list.isEmpty = false := by
      cases tmpl_list with
      | nil => simp at hu
      | cons a as => rfl
    rw [hne, template_get_toBool_true hk ⟨u, hu, e⟩]
    rfl

theorem run_calls_keys_nodup :
    ∀ (calls : List RegistryCall) (tmpl_list : List Template),
      (∀ t, RegistryCall.add (some t) ∈ calls → t.key ≠ []) →
      (tmpl_list.map Template.key).Nodup →
      ((run_calls tmpl_list calls).map Template.key).Nodup := by
  intro calls
  induction calls with
  | nil => intro l _ h; exact h
  | cons c cs ih =>
    intro l hk h
    have hstep : ((run_call l c).map Template.key).Nodup := by
      cases c with
      | cleanup => simp [run_call, template_cleanup]
      | add tmpl =>
        cases tmpl with
        | none => simpa [run_call, template_add] using h
        | some t => exact template_add_keys_nodup l t (hk t (List.mem_cons_self _ _)) h
    exact ih (run_call l c) (fun t ht => hk t (List.mem_cons_of_mem _ ht)) hstep

/-- C18: starting from the empty list, after any sequence of calls of
`template_add` (with `NULL` or with a template, whose key is not empty as
`template_new` sees to) and of `template_cleanup`, no two templates of the
list have the same key. -/
theorem C18_keys_are_unique (calls : List RegistryCall)
    (hk : ∀ t, RegistryCall.add (some t) ∈ calls → t.key ≠ []) :
    ((run_calls [] calls).map Template.key).Nodup :=
  run_calls_keys_nodup calls [] hk List.nodup_nil

/-- C18, at a sequence with a repeated key, a `NULL` and a cleanup. -/
theorem C18_keys_are_unique_witness :
    run_calls [] [.add (some ⟨"A".toList, "v".toList⟩), .add (some ⟨"A".toList, "w".toList⟩),
        .add none, .add (some ⟨"B".toList, "x".toList⟩), .cleanup,
        .add (some ⟨"A".toList, "y".toList⟩), .add (some ⟨"C".toList, "z".toList⟩),
        .add (some ⟨"C".toList, "z".toList⟩)]
      = [⟨"C".toList, "z".toList⟩, ⟨"A".toList, "y".toList⟩] ∧
    ((run_calls [] [.add (some ⟨"A".toList, "v".toList⟩), .add (some ⟨"A".toList, "w".toList⟩),
        .add none, .add (some ⟨"B".toList, "x".toList⟩), .cleanup,
        .add (some ⟨"A".toList, "y".toList⟩), .add (some ⟨"C".toList, "z".toList⟩),
        .add (some ⟨"C".toList, "z".toList⟩)]).map Template.key).Nodup :=
  ⟨rfl, C18_keys_are_unique _ (by
    intro t ht
    simp only [List.mem_cons, RegistryCall.add.injEq, Option.some.injEq, List.mem_singleton,
      List.not_mem_nil, or_false, reduceCtorEq, false_or] at ht
    rcases ht with e | e | e | e | e | e <;> · rw [e]; decide)⟩

/-! ## The argument check: claims C13 to C16 -/

/-- `check_template` is `check_template_run` without the list of a call
that exits. -/
theorem check_template_run_eq (E : Env) (tmpl_list : List Template) (arg : List Char) :
    check_template E tmpl_list arg =
      match check_template_run E tmpl_list arg with
      | (none, l) => .ok l
      | (some e, _) => .error e := by
  unfold check_template check_template_run check_key_value
  simp only
  split
  · rfl
  · split
    · rfl
    · split
      · rfl
      · split
        · rfl
        · split
          · rfl
          · split <;> rfl

/-- An argument `k:v` with a non-empty `k` and no further `:` is split into
the key `k` and the value `v`, which is `NULL` when `v` is empty. -/
theorem check_template_run_split (E : Env) (tmpl_list : List Template) (k v : List Char)
    (hk : k ≠ []) (hkc : ':' ∉ k) (hvc : ':' ∉ v) :
    check_template_run E tmpl_list (k ++ ':' :: v)
      = check_key_value E tmpl_list (some k) (if v = [] then none else some v) := by
  have ndk : ∀ c ∈ k, TEMPLATE_KEY_VALUE_DELIM.contains c = false := by
    intro c hc
    have : c ≠ ':' := fun e => hkc (e ▸ hc)
    simp [TEMPLATE_KEY_VALUE_DELIM, this]
  have ndv : ∀ c ∈ v, TEMPLATE_KEY_VALUE_DELIM.contains c = false := by
    intro c hc
    have : c ≠ ':' := fun e => hvc (e ▸ hc)
    simp [TEMPLATE_KEY_VALUE_DELIM, this]
  unfold check_template_run
  simp only [strtok_r_token v hk ndk (by decide : TEMPLATE_KEY_VALUE_DELIM.contains ':' = true),
    Option.map_some', Option.some_bind]
  by_cases hv : v = []
  · subst hv
    simp only [strtok_r_nil, Option.map_none', if_true]
  · simp only [strtok_r_last hv ndv, Option.map_some', if_neg hv]

theorem isalnum_not_colon {c : Char} (h : isalnum c = true) : c ≠ ':' := by
  rintro rfl; revert h; decide

theorem valid_key_no_colon {E : Env} {k : List Char}
    (h : is_valid_str E (some k) .STR_CHECK_ALNUM = true) : k ≠ [] ∧ ':' ∉ k := by
  obtain ⟨c, cs, e, h1, h2⟩ := (is_valid_str_alnum E k).1 h
  subst e
  refine ⟨by simp, ?_⟩
  intro hm
  rcases List.mem_cons.1 hm with e | e
  · exact isalnum_not_colon (isalpha_isalnum (e ▸ h1)) rfl
  · exact isalnum_not_colon (h2 _ e) rfl

theorem not_colon {p : List Char} (h : ':' ∉ p) :
    ∀ c ∈ p, TEMPLATE_KEY_VALUE_DELIM.contains c = false := by
  intro c hc
  have : c ≠ ':' := fun e => h (e ▸ hc)
  simp [TEMPLATE_KEY_VALUE_DELIM, this]

/-- An argument that starts with a non-empty `k` followed by `:` has the key
`k`; its value is the first token of the rest. -/
theorem check_template_run_key (E : Env) (tmpl_list : List Template) (k v : List Char)
    (hk : k ≠ []) (hkc : ':' ∉ k) :
    check_template_run E tmpl_list (k ++ ':' :: v)
      = check_key_value E tmpl_list (some k)
          ((strtok_r v TEMPLATE_KEY_VALUE_DELIM).map Prod.fst) := by
  unfold check_template_run
  simp only [strtok_r_token v hk (not_colon hkc)
    (by decide : TEMPLATE_KEY_VALUE_DELIM.contains ':' = true),
    Option.map_some', Option.some_bind]

theorem template_get_value_toBool {tmpl_list : List Template} {k v : List Char}
    (h : template_get_value tmpl_list k = .ok v) :
    tmpl_list.isEmpty = false ∧ (template_get tmpl_list k).toBool = true := by
  unfold template_get_value at h
  cases hg : template_get tmpl_list k with
  | error e => rw [hg] at h; exact absurd h (by simp)
  | ok t =>
    refine ⟨?_, rfl⟩
    cases tmpl_list with
    | nil =>
      unfold template_get at hg
      by_cases hk : k = []
      · rw [if_pos hk] at hg; exact absurd hg (by simp)
      · rw [if_neg hk] at hg; simp at hg
    | cons a as => rfl

theorem template_add_existing {tmpl_list : List Template} {k v : List Char} (w : List Char)
    (h : template_get_value tmpl_list k = .ok v) :
    template_add tmpl_list (some ⟨k, w⟩) = (-EALREADY, tmpl_list) := by
  obtain ⟨h1, h2⟩ := template_get_value_toBool h
  unfold template_add
  simp only [h1, h2, Bool.not_false, Bool.and_self, if_true]

theorem valid_value_ne_nil {E : Env} {v : List Char}
    (h : is_valid_str E (some v) .STR_CHECK_COMPAT = true) : v ≠ [] := by
  rintro rfl
  simp [is_valid_str] at h

/-- The check of a valid, not internal key that is in the list already. -/
theorem check_key_value_existing (E : Env) (tmpl_list : List Template) (k v1 v2 : List Char)
    (hreg : template_get_value tmpl_list k = .ok v1)
    (hk : is_valid_str E (some k) .STR_CHECK_ALNUM = true)
    (hi : is_internal_macro E k = false)
    (hv : is_valid_str E (some v2) .STR_CHECK_COMPAT = true) :
    check_key_value E tmpl_list (some k) (some v2) = (some .AlreadyExists, tmpl_list) := by
  have hkn := (valid_key_no_colon hk).1
  have hvn := valid_value_ne_nil hv
  obtain ⟨kc, ks, ek⟩ := List.exists_cons_of_ne_nil hkn
  obtain ⟨vc, vs, ev⟩ := List.exists_cons_of_ne_nil hvn
  have hnew : template_new (some k) (some v2) = some ⟨k, v2⟩ := by
    rw [ek, ev]; rfl
  unfold check_key_value
  simp only [hk, hv, hi, Option.getD_some, Bool.not_true, Bool.false_eq_true, if_false, hnew,
    template_add_existing v2 hreg]
  simp [EALREADY, EINVAL]

/-- C13: when the list holds the key `k` with value `v1`, `template_add`
with a second template of key `k` and any value `v2` returns `-EALREADY` and
leaves the list as it is, so that `template_get_value` still returns `v1`
for `k`; and `check_template` with `k:v2`, once `k` and `v2` have passed its
checks, exits with the message that the key exists already, the list being
as before. -/
theorem C13_second_template_with_key (E : Env) (tmpl_list : List Template) (k v1 v2 : List Char)
    (hreg : template_get_value tmpl_list k = .ok v1) :
    template_add tmpl_list (some ⟨k, v2⟩) = (-EALREADY, tmpl_list) ∧
      template_get_value (template_add tmpl_list (some ⟨k, v2⟩)).2 k = .ok v1 ∧
      ( is_valid_str E (some k) .STR_CHECK_ALNUM = true → is_internal_macro E k = false →
        is_valid_str E (some v2) .STR_CHECK_COMPAT = true → ':' ∉ v2 →
        check_template_run E tmpl_list (k ++ ':' :: v2) = (some .AlreadyExists, tmpl_list) ∧
          check_template E tmpl_list (k ++ ':' :: v2) = .error .AlreadyExists) := by
  have hadd := template_add_existing v2 hreg
  refine ⟨hadd, by rw [hadd]; exact hreg, ?_⟩
  intro hk hi hv hvc
  obtain ⟨hkn, hkc⟩ := valid_key_no_colon hk
  have hrun : check_template_run E tmpl_list (k ++ ':' :: v2)
      = (some .AlreadyExists, tmpl_list) := by
    rw [check_template_run_split E tmpl_list k v2 hkn hkc hvc, if_neg (valid_value_ne_nil hv)]
    exact check_key_value_existing E tmpl_list k v1 v2 hreg hk hi hv
  exact ⟨hrun, by rw [check_template_run_eq, hrun]⟩

/-- C13, at the list that holds `DIR` with value `/a` and the second value
`/b`. -/
theorem C13_second_template_with_key_witness :
    template_add [⟨"DIR".toList, "/a".toList⟩] (some ⟨"DIR".toList, "/b".toList⟩)
        = (-EALREADY, [⟨"DIR".toList, "/a".toList⟩]) ∧
      template_get_value (template_add [⟨"DIR".toList, "/a".toList⟩]
        (some ⟨"DIR".toList, "/b".toList⟩)).2 "DIR".toList = .ok "/a".toList ∧
      check_template_run env0 [⟨"DIR".toList, "/a".toList⟩] "DIR:/b".toList
        = (some .AlreadyExists, [⟨"DIR".toList, "/a".toList⟩]) ∧
      check_template env0 [⟨"DIR".toList, "/a".toList⟩] "DIR:/b".toList
        = .error .AlreadyExists :=
  ⟨(C13_second_template_with_key env0 [⟨"DIR".toList, "/a".toList⟩] "DIR".toList "/a".toList
      "/b".toList rfl).1,
    (C13_second_template_with_key env0 [⟨"DIR".toList, "/a".toList⟩] "DIR".toList "/a".toList
      "/b".toList rfl).2.1,
    (C13_second_template_with_key env0 [⟨"DIR".toList, "/a".toList⟩] "DIR".toList "/a".toList
      "/b".toList rfl).2.2 rfl rfl rfl (by decide)⟩

theorem template_add_failed (tmpl_list : List Template) (tmpl : Option Template)
    (h : (template_add tmpl_list tmpl).1 ≠ 0) : (template_add tmpl_list tmpl).2 = tmpl_list := by
  unfold template_add at h ⊢
  cases tmpl with
  | none => rfl
  | some t =>
    simp only at h ⊢
    split
    · rfl
    · rename_i hc
      rw [if_neg hc] at h
      exact absurd rfl h

/-- A check that ends with a message leaves the list as it was. -/
theorem check_key_value_failed (E : Env) (tmpl_list : List Template)
    (key value : Option (List Char)) (e : CheckError) (l : List Template)
    (h : check_key_value E tmpl_list key value = (some e, l)) : l = tmpl_list := by
  unfold check_key_value at h
  split at h
  · exact (Prod.mk.inj h).2.symm
  · split at h
    · exact (Prod.mk.inj h).2.symm
    · split at h
      · exact (Prod.mk.inj h).2.symm
      · simp only at h
        split at h
        · exact absurd (Prod.mk.inj h).1 (by simp)
        · rename_i h0
          have := template_add_failed tmpl_list (template_new key value) h0
          split at h
          · rw [← (Prod.mk.inj h).2, this]
          · split at h
            · rw [← (Prod.mk.inj h).2, this]
            · rw [← (Prod.mk.inj h).2, this]

/-- C14: when the key that `check_template` reads from its argument fails
`is_valid_str` with `STR_CHECK_ALNUM`, in particular for every argument `k:v`
whose non-empty `k` fails it, the call exits with the message of the invalid
key and the list is as before; and whatever the message a call exits with,
the list is as before. -/
theorem C14_failing_registration (E : Env) (tmpl_list : List Template) (arg : List Char) :
    ( is_valid_str E ((strtok_r arg TEMPLATE_KEY_VALUE_DELIM).map Prod.fst) .STR_CHECK_ALNUM
        = false →
      check_template_run E tmpl_list arg = (some .InvalidKey, tmpl_list) ∧
        check_template E tmpl_list arg = .error .InvalidKey) ∧
    (∀ k v : List Char, k ≠ [] → ':' ∉ k → is_valid_str E (some k) .STR_CHECK_ALNUM = false →
      check_template_run E tmpl_list (k ++ ':' :: v) = (some .InvalidKey, tmpl_list) ∧
        check_template E tmpl_list (k ++ ':' :: v) = .error .InvalidKey) ∧
    (∀ e l, check_template_run E tmpl_list arg = (some e, l) → l = tmpl_list) := by
  have hgen : ∀ a : List Char,
      is_valid_str E ((strtok_r a TEMPLATE_KEY_VALUE_DELIM).map Prod.fst) .STR_CHECK_ALNUM
        = false →
      check_template_run E tmpl_list a = (some .InvalidKey, tmpl_list) ∧
        check_template E tmpl_list a = .error .InvalidKey := by
    intro a h
    have hrun : check_template_run E tmpl_list a = (some .InvalidKey, tmpl_list) := by
      unfold check_template_run check_key_value
      simp only [h, Bool.not_false, if_true]
    exact ⟨hrun, by rw [check_template_run_eq, hrun]⟩
  refine ⟨hgen arg, ?_, ?_⟩
  · intro k v hk hkc hinv
    apply hgen
    rw [strtok_r_token v hk (not_colon hkc)
      (by decide : TEMPLATE_KEY_VALUE_DELIM.contains ':' = true)]
    exact hinv
  · intro e l h
    exact check_key_value_failed E tmpl_list _ _ e l h

/-- C14, at the arguments `1A:b` and `a-b:c` and, for the other messages, at
`A:`, `HOME:x` and `A:w`, with `A` in the list. -/
theorem C14_failing_registration_witness :
    check_template_run env0 [⟨"A".toList, "v".toList⟩] "1A:b".toList
        = (some .InvalidKey, [⟨"A".toList, "v".toList⟩]) ∧
      check_template_run env0 [⟨"A".toList, "v".toList⟩] "a-b:c".toList
        = (some .InvalidKey, [⟨"A".toList, "v".toList⟩]) ∧
      check_template_run env0 [⟨"A".toList, "v".toList⟩] "A:".toList
        = (some .InvalidValue, [⟨"A".toList, "v".toList⟩]) ∧
      check_template_run env0 [⟨"A".toList, "v".toList⟩] "HOME:x".toList
        = (some .OverrideNotPermitted, [⟨"A".toList, "v".toList⟩]) ∧
      check_template_run env0 [⟨"A".toList, "v".toList⟩] "A:w".toList
        = (some .AlreadyExists, [⟨"A".toList, "v".toList⟩]) :=
  ⟨((C14_failing_registration env0 [⟨"A".toList, "v".toList⟩] "1A:b".toList).1 rfl).1,
    ((C14_failing_registration env0 [⟨"A".toList, "v".toList⟩] []).2.1 "a-b".toList "c".toList
      (by decide) (by decide) rfl).1,
    rfl, rfl, rfl⟩

theorem internal_keys_valid (E : Env) {k : List Char} (h : k ∈ internal_keys) :
    is_valid_str E (some k) .STR_CHECK_ALNUM = true := by
  simp only [internal_keys, List.mem_cons, List.mem_singleton, List.not_mem_nil, or_false] at h
  rcases h with e | e | e | e | e <;> · subst e; rfl

/-- C15: when the names known to `macro_id` pass the check of keys, then for
every key `k` that `is_internal_macro` accepts, among them `HOME`, `CFG`,
`RUNUSER`, `PATH` and `PRIVILEGED`, and every value `v` that passes the check
of values and holds no `:`, `check_template` with `k:v` exits with the
message that the override is not permitted, and the list is as before. -/
theorem C15_internal_key_is_refused (E : Env) (tmpl_list : List Template) (k v : List Char)
    (hE : ∀ m, E.macro_id (macro_form m) ≠ -1 → is_valid_str E (some m) .STR_CHECK_ALNUM = true)
    (hk : is_internal_macro E k = true)
    (hv : is_valid_str E (some v) .STR_CHECK_COMPAT = true) (hvc : ':' ∉ v) :
    check_template_run E tmpl_list (k ++ ':' :: v) = (some .OverrideNotPermitted, tmpl_list) ∧
      check_template E tmpl_list (k ++ ':' :: v) = .error .OverrideNotPermitted := by
  have hkv : is_valid_str E (some k) .STR_CHECK_ALNUM = true := by
    have hk' := hk
    simp only [ is_internal_macro, Bool.or_eq_true, bne_iff_ne, ne_eq] at hk'
    rcases hk' with h | h
    · exact internal_keys_valid E (by simpa using h)
    · exact hE k h
  obtain ⟨hkn, hkc⟩ := valid_key_no_colon hkv
  have hrun : check_template_run E tmpl_list (k ++ ':' :: v)
      = (some .OverrideNotPermitted, tmpl_list) := by
    rw [check_template_run_split E tmpl_list k v hkn hkc hvc, if_neg (valid_value_ne_nil hv)]
    unfold check_key_value
    simp only [hkv, hv, hk, Option.getD_some, Bool.not_true, Bool.false_eq_true, if_false,
      if_true]
  exact ⟨hrun, by rw [check_template_run_eq, hrun]⟩

/-- C15, at the key `HOME` and the value `x`. -/
theorem C15_internal_key_is_refused_witness :
    check_template_run env0 [] "HOME:x".toList = (some .OverrideNotPermitted, []) ∧
      check_template env0 [] "HOME:x".toList = .error .OverrideNotPermitted :=
  C15_internal_key_is_refused env0 [] "HOME".toList "x".toList
    (fun _ h => absurd rfl h) rfl rfl (by decide)

/-- C16, as claimed, fails: `A:b:c` is checked with the value `b`, not with
`b:c` (which the check of values refuses), and is registered; `:b` is
checked with the key `b` and no value and refused for its value, not for its
key; `:b:c` is registered as `b` with value `c`. -/
theorem C16_split_counterexample :
    check_template env0 [] "A:b:c".toList = .ok [⟨"A".toList, "b".toList⟩] ∧
      is_valid_str env0 (some "b:c".toList) .STR_CHECK_COMPAT = false ∧
      check_template env0 [] ":b".toList = .error .InvalidValue ∧
      check_template env0 [] ":b".toList ≠ .error .InvalidKey ∧
      check_template env0 [] ":b:c".toList = .ok [⟨"b".toList, "c".toList⟩] :=
  ⟨rfl, rfl, rfl, by decide, rfl⟩

/-- C16, amended: `check_template` reads its argument with two calls of
`strtok_r`. A `:` at the start of the argument is skipped. For an argument
that starts with a non-empty `k` followed by `:`, the key checked is `k` and
the value checked is the first token of the rest: the rest itself when it
holds no `:` (no value when it is empty), and `w` when the rest is `w`
followed by `:` and more text, which is ignored. -/
theorem C16_argument_is_read_by_tokens (E : Env) (tmpl_list : List Template) :
    (∀ arg : List Char, check_template_run E tmpl_list (':' :: arg)
      = check_template_run E tmpl_list arg) ∧
    (∀ k v : List Char, k ≠ [] → ':' ∉ k →
      check_template_run E tmpl_list (k ++ ':' :: v)
        = check_key_value E tmpl_list (some k)
            ((strtok_r v TEMPLATE_KEY_VALUE_DELIM).map Prod.fst)) ∧
    (∀ k v : List Char, k ≠ [] → ':' ∉ k → ':' ∉ v →
      check_template_run E tmpl_list (k ++ ':' :: v)
        = check_key_value E tmpl_list (some k) (if v = [] then none else some v)) ∧
    (∀ k w rest : List Char, k ≠ [] → ':' ∉ k → w ≠ [] → ':' ∉ w →
      check_template_run E tmpl_list (k ++ ':' :: (w ++ ':' :: rest))
        = check_key_value E tmpl_list (some k) (some w)) ∧
    (∀ arg : List Char, check_template E tmpl_list arg =
      match check_template_run E tmpl_list arg with
      | (none, l) => .ok l
      | (some e, _) => .error e) := by
  refine ⟨?_, ?_, ?_, ?_, ?_⟩
  · intro arg
    unfold check_template_run
    rw [strtok_r_skip arg (by decide : TEMPLATE_KEY_VALUE_DELIM.contains ':' = true)]
  · intro k v hk hkc
    exact check_template_run_key E tmpl_list k v hk hkc
  · intro k v hk hkc hvc
    exact check_template_run_split E tmpl_list k v hk hkc hvc
  · intro k w rest hk hkc hw hwc
    rw [check_template_run_key E tmpl_list k _ hk hkc,
      strtok_r_token rest hw (not_colon hwc)
        (by decide : TEMPLATE_KEY_VALUE_DELIM.contains ':' = true)]
    rfl
  · intro arg
    exact check_template_run_eq E tmpl_list arg

/-- C16, amended, at the arguments `A:b`, `A:b:c` and `:b`. -/
theorem C16_argument_is_read_by_tokens_witness :
    check_template_run env0 [] "A:b".toList
        = check_key_value env0 [] (some "A".toList) (some "b".toList) ∧
      check_template_run env0 [] "A:b:c".toList
        = check_key_value env0 [] (some "A".toList) (some "b".toList) ∧
      check_template_run env0 [] ":b".toList
        = check_key_value env0 [] (some "b".toList) none :=
  ⟨(C16_argument_is_read_by_tokens env0 []).2.2.1 "A".toList "b".toList
      (by decide) (by decide) (by decide),
    (C16_argument_is_read_by_tokens env0 []).2.2.2.1 "A".toList "b".toList "c".toList
      (by decide) (by decide) (by decide) (by decide),
    ((C16_argument_is_read_by_tokens env0 []).1 "b".toList).trans rfl⟩

/-! ## The buffer of the scan: claim C20 -/

/-- The copy loop on a name that does not fit: it copies as many characters
as the buffer has bytes. -/
theorem copy_key_name_full (E : Env) :
    ∀ (name : List Char) (i : Nat) (buf rest : List Char), '}' ∉ name →
      E.DBUS_MAX_NAME_LENGTH ≤ i + name.length → i ≤ E.DBUS_MAX_NAME_LENGTH →
      (copy_key_name E i (name ++ rest) buf).1
        = buf ++ name.take (E.DBUS_MAX_NAME_LENGTH - i) := by
  intro name
  induction name with
  | nil =>
    intro i buf rest _ h1 h2
    simp only [List.length_nil, Nat.add_zero] at h1
    have hi : ¬ i < E.DBUS_MAX_NAME_LENGTH := by omega
    cases rest with
    | nil => simp [copy_key_name]
    | cons c cs => simp [copy_key_name, hi]
  | cons c cs ih =>
    intro i buf rest hn h1 h2
    have hc : c ≠ '}' := fun e => hn (by rw [e]; exact List.mem_cons_self _ _)
    have hcs : '}' ∉ cs := fun e => hn (List.mem_cons_of_mem _ e)
    simp only [List.length_cons] at h1
    rw [List.cons_append, copy_key_name]
    by_cases hi : i < E.DBUS_MAX_NAME_LENGTH
    · rw [if_pos ⟨hc, hi⟩, ih (i + 1) (buf ++ [c]) rest hcs (by omega) (by omega)]
      obtain ⟨m, hm⟩ : ∃ m, E.DBUS_MAX_NAME_LENGTH - i = m + 1 :=
        ⟨E.DBUS_MAX_NAME_LENGTH - i - 1, by omega⟩
      have hm2 : E.DBUS_MAX_NAME_LENGTH - (i + 1) = m := by omega
      rw [hm, hm2, List.take_succ_cons]
      simp
    · rw [if_neg (fun h => hi h.2)]
      have : E.DBUS_MAX_NAME_LENGTH - i = 0 := by omega
      rw [this]
      simp

/-- A reference whose name has as many characters as the buffer has bytes,
or more: the buffer is filled, no zero byte is left in it, and the scan reads
past its end. -/
theorem scan_name_too_long (E : Env) (tmpl_list : List Template) (p name rest : List Char)
    (hp : ¬ (['$', '{'] <:+: p)) (hn : '}' ∉ name) (hz : NUL ∉ name)
    (hlen : E.DBUS_MAX_NAME_LENGTH ≤ name.length) :
    (copy_key_name E 0 (name ++ rest) []).1 = name.take E.DBUS_MAX_NAME_LENGTH ∧
      (buf_bytes E (copy_key_name E 0 (name ++ rest) []).1).length = E.DBUS_MAX_NAME_LENGTH ∧
      NUL ∉ buf_bytes E (copy_key_name E 0 (name ++ rest) []).1 ∧
      template_requires_expansion E tmpl_list (p ++ '$' :: '{' :: (name ++ rest))
        = .error .Unterminated := by
  have hcopy : (copy_key_name E 0 (name ++ rest) []).1 = name.take E.DBUS_MAX_NAME_LENGTH := by
    have := copy_key_name_full E name 0 [] rest hn (by omega) (Nat.zero_le _)
    simpa using this
  have htl : (name.take E.DBUS_MAX_NAME_LENGTH).length = E.DBUS_MAX_NAME_LENGTH := by
    rw [List.length_take]; omega
  have hbytes : buf_bytes E (name.take E.DBUS_MAX_NAME_LENGTH)
      = name.take E.DBUS_MAX_NAME_LENGTH := by
    unfold buf_bytes
    rw [htl, Nat.sub_self]
    simp
  refine ⟨hcopy, ?_, ?_, ?_⟩
  · rw [hcopy, hbytes, htl]
  · rw [hcopy, hbytes]
    exact fun h => hz (List.mem_of_mem_take h)
  · rw [template_requires_expansion_eq,
      scan_loop_text E tmpl_list p _ ('$' :: '{' :: (name ++ rest)) hp (Or.inr ⟨_, rfl⟩)
        (Nat.lt_succ_self _),
      scan_loop, if_pos ⟨rfl, rfl⟩]
    simp only [List.tail_cons]
    rw [hcopy]
    simp only [buf_string, htl, Nat.lt_irrefl, if_false]

/-- C20, evaluated: with a buffer of 255 bytes, on the line `a${`, 255 times
`A`, `}` the copy loop writes 255 characters; the buffer then holds no zero
byte, and the name is read past the end of the buffer. -/
theorem C20_long_name_evaluated :
    (copy_key_name env0 0 (List.replicate 255 'A' ++ ['}']) []).1 = List.replicate 255 'A' ∧
      (buf_bytes env0 (copy_key_name env0 0 (List.replicate 255 'A' ++ ['}']) []).1).length
        = env0.DBUS_MAX_NAME_LENGTH ∧
      NUL ∉ buf_bytes env0 (copy_key_name env0 0 (List.replicate 255 'A' ++ ['}']) []).1 ∧
      template_requires_expansion env0 []
          ("a".toList ++ '$' :: '{' :: (List.replicate 255 'A' ++ ['}']))
        = .error .Unterminated := by
  have hn : '}' ∉ List.replicate 255 'A' := by
    intro h; exact absurd (List.eq_of_mem_replicate h) (by decide)
  have hz : NUL ∉ List.replicate 255 'A' := by
    intro h; exact absurd (List.eq_of_mem_replicate h) (by decide)
  have h := scan_name_too_long env0 [] "a".toList (List.replicate 255 'A') ['}']
    (by decide) hn hz (by rw [List.length_replicate]; exact Nat.le_refl 255)
  refine ⟨?_, h.2.1, h.2.2.1, h.2.2.2⟩
  rw [h.1]
  exact List.take_of_length_le (by rw [List.length_replicate]; exact Nat.le_refl 255)

/-! ## The bytes of the argument of the expander: claim C17 -/

theorem kept_or_zero_refl (l : List Char) : List.Forall₂ kept_or_zero l l :=
  List.forall₂_same.2 (fun _ _ => Or.inl rfl)

/-- The string `strtok_r` was called with is made of the delimiters skipped,
the token, the delimiter that ends the token if there is one, and the string
`strtok_r` goes on from; the zero byte is written over that delimiter. -/
theorem strtok_r_bytes {delim s t r : List Char} (h : strtok_r s delim = some (t, r)) :
    ∃ dl, s = strtok_r_skipped s delim ++ t ++ dl ++ r ∧
      List.Forall₂ kept_or_zero dl (strtok_r_written s delim) := by
  unfold strtok_r at h
  unfold strtok_r_skipped strtok_r_written
  have h0 := List.takeWhile_append_dropWhile (fun c => delim.contains c) s
  split at h
  · exact absurd h (by simp)
  · rename_i c cs hcs
    simp only [Option.some.injEq, Prod.mk.injEq] at h
    have h1 := List.takeWhile_append_dropWhile (fun x => !delim.contains x) (c :: cs)
    rw [hcs] at h0 ⊢
    rw [← h.1, ← h.2]
    cases hd : (c :: cs).dropWhile (fun x => !delim.contains x) with
    | nil =>
      rw [hd] at h1
      refine ⟨[], ?_, List.Forall₂.nil⟩
      simp only [List.tail_nil, List.append_nil] at h1 ⊢
      rw [h1]
      exact h0.symm
    | cons d ds =>
      rw [hd] at h1
      refine ⟨[d], ?_, List.Forall₂.cons (Or.inr rfl) List.Forall₂.nil⟩
      simp only [List.tail_cons]
      rw [List.append_assoc, List.append_assoc, List.singleton_append, h1]
      exact h0.symm

/-- The bytes after one call of `strtok_r` and what follows it. -/
theorem kept_or_zero_step {s skipped t dl r b wr y : List Char}
    (hs : s = skipped ++ t ++ dl ++ r) (ht : List.Forall₂ kept_or_zero t b)
    (hd : List.Forall₂ kept_or_zero dl wr) (hr : List.Forall₂ kept_or_zero r y) :
    List.Forall₂ kept_or_zero s (skipped ++ b ++ wr ++ y) := by
  rw [hs]
  exact List.rel_append (List.rel_append (List.rel_append (kept_or_zero_refl skipped) ht) hd) hr

/-- The result of the loop with bytes is the result of the loop. -/
theorem process_key_value_loop_mem_fst (E : Env) (tmpl_list : List Template) :
    ∀ (fuel : Nat) (container : Option (List Char)) (first : Bool) (before s : List Char),
      (process_key_value_loop_mem E tmpl_list fuel container first before s).1
        = process_key_value_loop E tmpl_list fuel container first s := by
  intro fuel
  induction fuel with
  | zero => intro _ _ _ _; rfl
  | succ n ih =>
    intro container first before s
    rw [process_key_value_loop_mem, process_key_value_loop]
    cases strtok_r s TEMPLATE_KEY_MACRO_SUB_DELIMS with
    | none => rfl
    | some tr =>
      obtain ⟨t, r⟩ := tr
      simp only
      split
      · exact ih _ _ _ _
      · split
        · rfl
        · exact ih _ _ _ _

/-- The bytes the loop leaves start with the bytes in front; behind them,
every byte of the string is as before or zero. -/
theorem process_key_value_loop_mem_snd (E : Env) (tmpl_list : List Template) :
    ∀ (fuel : Nat) (container : Option (List Char)) (first : Bool) (before s : List Char),
      ∃ y, (process_key_value_loop_mem E tmpl_list fuel container first before s).2 = before ++ y
        ∧ List.Forall₂ kept_or_zero s y := by
  intro fuel
  induction fuel with
  | zero => intro _ _ before s; exact ⟨s, rfl, kept_or_zero_refl s⟩
  | succ n ih =>
    intro container first before s
    rw [process_key_value_loop_mem]
    cases hs : strtok_r s TEMPLATE_KEY_MACRO_SUB_DELIMS with
    | none => exact ⟨s, rfl, kept_or_zero_refl s⟩
    | some tr =>
      obtain ⟨t, r⟩ := tr
      obtain ⟨dl, hdec, hdl⟩ := strtok_r_bytes hs
      have go : ∀ c : Option (List Char),
          ∃ y, (process_key_value_loop_mem E tmpl_list n c false
              (before ++ strtok_r_skipped s TEMPLATE_KEY_MACRO_SUB_DELIMS ++ t
                ++ strtok_r_written s TEMPLATE_KEY_MACRO_SUB_DELIMS) r).2 = before ++ y
            ∧ List.Forall₂ kept_or_zero s y := by
        intro c
        obtain ⟨y, h1, h2⟩ := ih c false
          (before ++ strtok_r_skipped s TEMPLATE_KEY_MACRO_SUB_DELIMS ++ t
            ++ strtok_r_written s TEMPLATE_KEY_MACRO_SUB_DELIMS) r
        refine ⟨strtok_r_skipped s TEMPLATE_KEY_MACRO_SUB_DELIMS ++ t
            ++ strtok_r_written s TEMPLATE_KEY_MACRO_SUB_DELIMS ++ y, ?_,
          kept_or_zero_step hdec (kept_or_zero_refl t) hdl h2⟩
        rw [h1]; simp only [List.append_assoc]
      simp only
      split
      · exact go _
      · split
        · refine ⟨strtok_r_skipped s TEMPLATE_KEY_MACRO_SUB_DELIMS ++ t
            ++ strtok_r_written s TEMPLATE_KEY_MACRO_SUB_DELIMS ++ r, ?_,
            kept_or_zero_step hdec (kept_or_zero_refl t) hdl (kept_or_zero_refl r)⟩
          simp only [List.append_assoc]
        · exact go _

theorem process_key_value_mem_fst (E : Env) (tmpl_list : List Template)
    (container : Option (List Char)) (str_in : List Char) :
    (process_key_value_mem E tmpl_list container str_in).1
      = process_key_value E tmpl_list container str_in :=
  process_key_value_loop_mem_fst E tmpl_list _ container true [] str_in

theorem process_key_value_mem_snd (E : Env) (tmpl_list : List Template)
    (container : Option (List Char)) (str_in : List Char) :
    List.Forall₂ kept_or_zero str_in (process_key_value_mem E tmpl_list container str_in).2 := by
  obtain ⟨y, h1, h2⟩ := process_key_value_loop_mem_snd E tmpl_list (str_in.length + 1)
    container true [] str_in
  unfold process_key_value_mem
  rw [h1, List.nil_append]
  exact h2

theorem template_replace_keys_loop_mem_fst (E : Env) (tmpl_list : List Template) :
    ∀ (fuel : Nat) (new_string : Option (List Char)) (first : Bool) (before s : List Char),
      (template_replace_keys_loop_mem E tmpl_list fuel new_string first before s).1
        = template_replace_keys_loop E tmpl_list fuel new_string first s := by
  intro fuel
  induction fuel with
  | zero => intro _ _ _ _; rfl
  | succ n ih =>
    intro new_string first before s
    rw [template_replace_keys_loop_mem, template_replace_keys_loop]
    cases strtok_r s TEMPLATE_KEY_MACRO_DELIM with
    | none => rfl
    | some tr =>
      obtain ⟨t, r⟩ := tr
      simp only
      split
      · split
        · rfl
        · rw [process_key_value_mem_fst]
          split
          · rfl
          · rfl
          · rfl
          · exact ih _ _ _ _
      · split
        · rfl
        · exact ih _ _ _ _

theorem template_replace_keys_loop_mem_snd (E : Env) (tmpl_list : List Template) :
    ∀ (fuel : Nat) (new_string : Option (List Char)) (first : Bool) (before s : List Char),
      ∃ y, (template_replace_keys_loop_mem E tmpl_list fuel new_string first before s).2
          = before ++ y ∧ List.Forall₂ kept_or_zero s y := by
  intro fuel
  induction fuel with
  | zero => intro _ _ before s; exact ⟨s, rfl, kept_or_zero_refl s⟩
  | succ n ih =>
    intro new_string first before s
    rw [template_replace_keys_loop_mem]
    cases hs : strtok_r s TEMPLATE_KEY_MACRO_DELIM with
    | none => exact ⟨s, rfl, kept_or_zero_refl s⟩
    | some tr =>
      obtain ⟨t, r⟩ := tr
      obtain ⟨dl, hdec, hdl⟩ := strtok_r_bytes hs
      have hpk := process_key_value_mem_snd E tmpl_list new_string t
      have stop : ∀ b : List Char, List.Forall₂ kept_or_zero t b →
          ∃ y, before ++ strtok_r_skipped s TEMPLATE_KEY_MACRO_DELIM ++ b
              ++ strtok_r_written s TEMPLATE_KEY_MACRO_DELIM ++ r = before ++ y
            ∧ List.Forall₂ kept_or_zero s y := by
        intro b hb
        refine ⟨strtok_r_skipped s TEMPLATE_KEY_MACRO_DELIM ++ b
          ++ strtok_r_written s TEMPLATE_KEY_MACRO_DELIM ++ r, ?_,
          kept_or_zero_step hdec hb hdl (kept_or_zero_refl r)⟩
        simp only [List.append_assoc]
      have go : ∀ (b : List Char) (ns : Option (List Char)), List.Forall₂ kept_or_zero t b →
          ∃ y, (template_replace_keys_loop_mem E tmpl_list n ns false
              (before ++ strtok_r_skipped s TEMPLATE_KEY_MACRO_DELIM ++ b
                ++ strtok_r_written s TEMPLATE_KEY_MACRO_DELIM) r).2 = before ++ y
            ∧ List.Forall₂ kept_or_zero s y := by
        intro b ns hb
        obtain ⟨y, h1, h2⟩ := ih ns false
          (before ++ strtok_r_skipped s TEMPLATE_KEY_MACRO_DELIM ++ b
            ++ strtok_r_written s TEMPLATE_KEY_MACRO_DELIM) r
        refine ⟨strtok_r_skipped s TEMPLATE_KEY_MACRO_DELIM ++ b
          ++ strtok_r_written s TEMPLATE_KEY_MACRO_DELIM ++ y, ?_,
          kept_or_zero_step hdec hb hdl h2⟩
        rw [h1]; simp only [List.append_assoc]
      simp only
      split
      · split
        · exact stop t (kept_or_zero_refl t)
        · split
          · exact stop _ hpk
          · exact stop _ hpk
          · exact stop _ hpk
          · exact go _ _ hpk
      · split
        · exact stop t (kept_or_zero_refl t)
        · exact go t _ (kept_or_zero_refl t)

/-- The result of the expander with bytes is the result of the expander. -/
theorem template_replace_keys_mem_fst (E : Env) (tmpl_list : List Template) (arg : List Char) :
    (template_replace_keys_mem E tmpl_list arg).1 = template_replace_keys E tmpl_list arg := by
  unfold template_replace_keys_mem template_replace_keys
  split
  · rfl
  · split
    · rfl
    · split
      · rfl
      · simp only [template_replace_keys_loop_mem_fst]

/-- C17, as claimed, fails: after the call on `a${FOO}b`, which returns
`avb`, the bytes of the argument are `a`, zero, `{FOO`, zero, `b`; after the
failing call on `a${nope}b` they are `a`, zero, `{nope`, zero, `b`. -/
theorem C17_argument_bytes_counterexample :
    template_replace_keys_mem env0 [⟨"FOO".toList, "v".toList⟩] "a${FOO}b".toList
        = (.ok "avb".toList, ['a', NUL, '{', 'F', 'O', 'O', NUL, 'b']) ∧
      (template_replace_keys_mem env0 [⟨"FOO".toList, "v".toList⟩] "a${FOO}b".toList).2
        ≠ "a${FOO}b".toList ∧
      template_replace_keys_mem env0 [⟨"FOO".toList, "v".toList⟩] "a${nope}b".toList
        = (.error (.InvalidLine ENOKEY), ['a', NUL, '{', 'n', 'o', 'p', 'e', NUL, 'b']) ∧
      (template_replace_keys_mem env0 [⟨"FOO".toList, "v".toList⟩] "a${nope}b".toList).2
        ≠ "a${nope}b".toList :=
  ⟨rfl, by decide, rfl, by decide⟩

/-- C17, amended: `template_replace_keys` cuts its argument into tokens in
place. `template_replace_keys_mem` gives the value that
`template_replace_keys` returns and the bytes of the argument after the
call: they keep their number, and each of them is as before or zero. An
argument that is empty, holds no `$` or starts with `$` is left as it is. In
every other argument, the text `p` before the first `$` followed by `$`, that
`$` is overwritten with a zero byte, so that the argument afterwards reads as
`p`. -/
theorem C17_argument_bytes (E : Env) (tmpl_list : List Template) (arg : List Char) :
    (template_replace_keys_mem E tmpl_list arg).1 = template_replace_keys E tmpl_list arg ∧
      List.Forall₂ kept_or_zero arg (template_replace_keys_mem E tmpl_list arg).2 ∧
      (template_replace_keys_mem E tmpl_list arg).2.length = arg.length ∧
      (arg = [] ∨ '$' ∉ arg ∨ arg.head? = some '$' →
        (template_replace_keys_mem E tmpl_list arg).2 = arg) ∧
      (∀ p x : List Char, arg = p ++ '$' :: x → p ≠ [] → '$' ∉ p →
        ∃ y, (template_replace_keys_mem E tmpl_list arg).2 = p ++ NUL :: y ∧
          List.Forall₂ kept_or_zero x y) := by
  have hkept : List.Forall₂ kept_or_zero arg (template_replace_keys_mem E tmpl_list arg).2 := by
    unfold template_replace_keys_mem
    split
    · exact kept_or_zero_refl _
    · split
      · exact kept_or_zero_refl _
      · split
        · exact kept_or_zero_refl _
        · obtain ⟨y, h1, h2⟩ := template_replace_keys_loop_mem_snd E tmpl_list
            (arg.length + 1) none true [] arg
          simp only [h1, List.nil_append]
          exact h2
  refine ⟨template_replace_keys_mem_fst E tmpl_list arg, hkept, hkept.length_eq.symm, ?_, ?_⟩
  · intro h
    unfold template_replace_keys_mem
    split
    · rfl
    · split
      · rfl
      · split
        · rfl
        · rename_i h1 h2 h3
          rcases h with h | h | h
          · exact absurd h h1
          · rw [strchr_eq_none h] at h2
            exact absurd rfl h2
          · exact absurd h h3
  · intro p x harg hp hpd
    subst harg
    have hne : p ++ '$' :: x ≠ [] := by
      intro h
      exact hp (List.append_eq_nil.1 h).1
    have hchr : (strchr (p ++ '$' :: x) '$').isNone = false := by
      rw [strchr_append_cons x hpd]; rfl
    have hhead : ¬ ((p ++ '$' :: x).head? = some '$') := by
      cases p with
      | nil => exact absurd rfl hp
      | cons c cs =>
        intro h
        simp only [List.cons_append, List.head?_cons, Option.some.injEq] at h
        exact hpd (h ▸ List.mem_cons_self _ _)
    have hskip : strtok_r_skipped (p ++ '$' :: x) TEMPLATE_KEY_MACRO_DELIM = [] := by
      cases p with
      | nil => exact absurd rfl hp
      | cons c cs =>
        have hc : TEMPLATE_KEY_MACRO_DELIM.contains c = false :=
          not_dollar hpd c (List.mem_cons_self _ _)
        simp only [strtok_r_skipped, List.cons_append, List.takeWhile_cons, hc,
          Bool.false_eq_true, if_false]
    have hwr : strtok_r_written (p ++ '$' :: x) TEMPLATE_KEY_MACRO_DELIM = [NUL] := by
      have h0 : (p ++ '$' :: x).dropWhile (fun c => TEMPLATE_KEY_MACRO_DELIM.contains c)
          = p ++ '$' :: x := by
        cases p with
        | nil => exact absurd rfl hp
        | cons c cs =>
          have hc : TEMPLATE_KEY_MACRO_DELIM.contains c = false :=
            not_dollar hpd c (List.mem_cons_self _ _)
          simp only [List.cons_append, List.dropWhile_cons, hc, Bool.false_eq_true, if_false]
      unfold strtok_r_written
      rw [h0, dropWhile_append_delim x (not_dollar hpd) (by decide)]
    have hfuel : (p ++ '$' :: x).length + 1 = (p.length + x.length + 1) + 1 := by
      simp only [List.length_cons, List.length_append]; omega
    unfold template_replace_keys_mem
    rw [if_neg hne, hchr, if_neg (by simp), if_neg hhead, hfuel]
    simp only
    rw [template_replace_keys_loop_mem, strtok_r_token x hp (not_dollar hpd) (by decide)]
    simp only [Bool.not_true, Bool.false_eq_true, if_false, append_to_string, hskip, hwr,
      List.nil_append]
    obtain ⟨y, h1, h2⟩ := template_replace_keys_loop_mem_snd E tmpl_list
      (p.length + x.length + 1) (some p) false (p ++ [NUL]) x
    exact ⟨y, by rw [h1]; simp, h2⟩

/-- C17, amended, at the lines `seccomp` and `a${FOO}b`. -/
theorem C17_argument_bytes_witness :
    (template_replace_keys_mem env0 [] "seccomp".toList).2 = "seccomp".toList ∧
      ∃ y, (template_replace_keys_mem env0 [⟨"FOO".toList, "v".toList⟩] "a${FOO}b".toList).2
          = "a".toList ++ NUL :: y ∧ List.Forall₂ kept_or_zero "{FOO}b".toList y :=
  ⟨(C17_argument_bytes env0 [] "seccomp".toList).2.2.2.1 (Or.inr (Or.inl (by decide))),
    (C17_argument_bytes env0 [⟨"FOO".toList, "v".toList⟩] "a${FOO}b".toList).2.2.2.2
      "a".toList "{FOO}b".toList rfl (by decide) (by decide)⟩

end Firejail
